import Mathlib

/-!
Verification of the MO translation-catalog engine (`mo_parser.c`).

The development shallowly embeds the parser and its three compile-time
search strategies (linear scan, length-then-lex binary search, djb2
open-addressing hash) together with the 64-slot direct-mapped result
cache and the optional statistics counters.  Machine integers are
modelled as `Nat` with explicit `% 2^32` where the C source computes in
`uint32_t`; `size_t` quantities (file sizes, loop indices over a file
that fits in memory) are modelled as plain `Nat`, matching an LP64
platform where the relevant sums cannot overflow 64 bits.  Pointers are
modelled as abstract `Nat` identities: the C code compares query
pointers only for equality, never dereferences a cache key, and returns
either the caller's pointer or a pointer to a translation inside the
owned buffer.
-/

set_option maxHeartbeats 1600000

namespace MoParser

/-- A byte of the loaded file or of a query string. -/
abbrev Byte := Fin 256

/-- Error codes of `mo_error_t`; `MO_SUCCESS` is the `Except.ok` case. -/
inductive MoError where
  | FILE_NOT_FOUND
  | INVALID_FORMAT
  | MEMORY
  | INVALID_CONTEXT
  | ERR_IO
  | NOT_INITIALIZED
deriving DecidableEq, Repr

/-- Compile-time search strategy (`MO_SEARCH_METHOD_*`). -/
inductive SearchMethod where
  | linear
  | binary
  | hash
deriving DecidableEq, Repr

/-- Byte of `data` at index `i`; 0 past the end (reads past the end only
happen for inputs the validator rejects, or in the documented
out-of-bounds bug analysed at claim C4). -/
def byteAt (data : List Byte) (i : Nat) : Nat := (data.getD i ⟨0, by decide⟩).val

/-- Host (little-endian) 32-bit load at offset `off`, as performed by
reading a `uint32_t` field of the packed `mo_header_t` / `mo_string_entry_t`
views into the buffer. -/
def loadU32 (data : List Byte) (off : Nat) : Nat :=
  byteAt data off + 256 * byteAt data (off + 1) +
    65536 * byteAt data (off + 2) + 16777216 * byteAt data (off + 3)

/-- Model of `mo_swap_uint32`: conditional byte swap of a 32-bit value. -/
def mo_swap_uint32 (val : Nat) (swap : Bool) : Nat :=
  if !swap then val
  else ((val >>> 24) &&& 0x000000FF) ||| ((val >>> 8) &&& 0x0000FF00) |||
       ((val <<< 8) &&& 0x00FF0000) ||| ((val <<< 24) &&& 0xFF000000)

/-- Read a header/table field: host load followed by `mo_swap_uint32`. -/
def readField (data : List Byte) (off : Nat) (swap : Bool) : Nat :=
  mo_swap_uint32 (loadU32 data off) swap

/-- Model of `mo_hash_string`: djb2 over the first `len` bytes, with
32-bit wrapping arithmetic.  The query byte list passed around in this
development is exactly the `len` bytes the C code reads. -/
def mo_hash_string (s : List Byte) : Nat :=
  s.foldl (fun h b => ((h <<< 5) + h + b.val) % 4294967296) 5381

/-- The or-shift cascade of `mo_next_power_of_two`: after the five
doubling steps every bit below the most significant set bit is set. -/
def smear32 (a : Nat) : Nat :=
  let b := a ||| (a >>> 1)
  let c := b ||| (b >>> 2)
  let d := c ||| (c >>> 4)
  let e := d ||| (d >>> 8)
  e ||| (e >>> 16)

/-- Model of `mo_next_power_of_two` (uint32 bit-smearing).  The
decrement and final increment wrap at `2^32` exactly as the C does. -/
def mo_next_power_of_two (n : Nat) : Nat :=
  (smear32 ((n + 4294967295) % 4294967296) + 1) % 4294967296

/-- One resolved string pair (`mo_string_pair_t`): byte views into the
owned buffer plus the declared lengths.  For a descriptor whose
declared extent actually lies inside the buffer the view has exactly
`original_len` (resp. `translation_len`) bytes. -/
structure MoStringPair where
  original : List Byte
  translation : List Byte
  original_len : Nat
  translation_len : Nat
deriving DecidableEq, Repr

instance : Inhabited MoStringPair := ⟨⟨[], [], 0, 0⟩⟩

/-- Descriptor of one index of the original/translation tables, after
byte-order conversion.  Retained so that theorems can speak about the
on-disk offsets the views were resolved from. -/
structure MoDesc where
  origLen : Nat
  origOff : Nat
  transLen : Nat
  transOff : Nat
deriving DecidableEq, Repr

/-- Slot state of the open-addressing hash table. -/
inductive SlotState where
  | empty
  | occupied
  | deleted
deriving DecidableEq, Repr

/-- One hash-table slot (`mo_hash_slot_t`). -/
structure MoHashSlot where
  original : List Byte
  translation : List Byte
  original_len : Nat
  translation_len : Nat
  hash : Nat
  state : SlotState
deriving DecidableEq, Repr

/-- Zero-initialised slot, as produced by `calloc`. -/
def emptySlot : MoHashSlot := ⟨[], [], 0, 0, 0, .empty⟩

/-- The built hash table: slot array plus the stored size and mask
(`hash_table_size`, `hash_table_mask = size - 1`). -/
structure MoHashTable where
  slots : List MoHashSlot
  size : Nat
  mask : Nat
deriving DecidableEq, Repr

/-- Loaded catalog (`struct mo_context`), with the fields the claims
touch.  `pairs` is an `Option` because the C code guards on
`!context->pairs`; every successful `mo_context_create_from_memory`
produces `some`.  In binary builds `pairs` holds the sorted array, in
linear and hash builds the file-order array. -/
structure MoContext where
  data : List Byte
  size : Nat
  numStrings : Nat
  descs : List MoDesc
  pairs : Option (List MoStringPair)
  hashTable : Option MoHashTable
deriving DecidableEq, Repr

/-! ## Search strategies -/

/-- Structural byte-wise comparison; on lists of equal length this is
exactly `memcmp`'s sign over that many bytes. -/
def bytesCmp : List Byte → List Byte → Ordering
  | [], [] => .eq
  | [], _ :: _ => .lt
  | _ :: _, [] => .gt
  | a :: as, b :: bs =>
    if a.val < b.val then .lt
    else if b.val < a.val then .gt
    else bytesCmp as bs

/-- Whether a pair matches a query of `len` bytes `str`: length first,
then content, mirroring `mo_find_string_linear`'s two tests. -/
def pairMatches (p : MoStringPair) (str : List Byte) (len : Nat) : Bool :=
  p.original_len == len && p.original == str

/-- Model of `mo_find_string_linear`: index of the first matching pair,
together with the number of `comparisons` counter increments (one per
examined pair). -/
def mo_find_string_linear (pairs : List MoStringPair) (str : List Byte) (len : Nat) :
    Option Nat × Nat :=
  go pairs 0
where
  go : List MoStringPair → Nat → Option Nat × Nat
  | [], k => (none, k)
  | p :: ps, k =>
    if pairMatches p str len then (some k, k + 1)
    else
      match go ps (k + 1) with
      | (r, c) => (r, c)

/-- Model of `mo_compare_pairs`, the `qsort` comparator of the binary
build: length first, then `memcmp` of the originals. -/
def pairCmp (p q : MoStringPair) : Ordering :=
  if p.original_len < q.original_len then .lt
  else if q.original_len < p.original_len then .gt
  else bytesCmp p.original q.original

/-- Non-strict order induced by `pairCmp`, used to model the `qsort`
call: the binary build's pair array is a permutation of the file-order
array sorted by this order. -/
def pairLe (p q : MoStringPair) : Prop := pairCmp p q ≠ .gt

instance : DecidableRel pairLe := fun p q => by unfold pairLe; infer_instance

/-- Comparison of a stored pair against a query, as performed inside
the binary-search loop (`original_len` against `len`, then `memcmp`). -/
def pairQueryCmp (p : MoStringPair) (str : List Byte) (len : Nat) : Ordering :=
  if p.original_len < len then .lt
  else if len < p.original_len then .gt
  else bytesCmp p.original str

/-- Loop body of `mo_find_string_binary` on the window `[left, right]`,
also counting examined pairs.  The `mid = 0` tests model the C guards
against `uint32` underflow of `right = mid - 1`. -/
def mo_find_binary_go (pairs : List MoStringPair) (str : List Byte) (len : Nat)
    (left right : Nat) : Option Nat × Nat :=
  if _h : right < left then (none, 0)
  else
    let mid := left + (right - left) / 2
    match pairQueryCmp (pairs.getD mid default) str len with
    | .eq => (some mid, 1)
    | .lt =>
      match mo_find_binary_go pairs str len (mid + 1) right with
      | (r, c) => (r, c + 1)
    | .gt =>
      if mid = 0 then (none, 1)
      else
        match mo_find_binary_go pairs str len left (mid - 1) with
        | (r, c) => (r, c + 1)
termination_by right + 1 - left
decreasing_by
  · omega
  · omega

/-- Model of `mo_find_string_binary` (the pair array of a binary-build
catalog is already sorted). -/
def mo_find_string_binary (pairs : List MoStringPair) (str : List Byte) (len : Nat) :
    Option Nat × Nat :=
  if pairs.length = 0 then (none, 0)
  else mo_find_binary_go pairs str len 0 (pairs.length - 1)

/-! ## Hash table -/

/-- Insertion probe of `mo_build_hash_table`: advance past `occupied`
slots with linear probing.  The C loop has no termination guard; the
`fuel` argument makes the model total, and `mo_insert_probe_total`
below shows `slots.length` fuel always suffices while the table is not
full, which is the claim C9 makes about the build. -/
def mo_insert_probe (slots : List MoHashSlot) (mask : Nat) : Nat → Nat → Option Nat
  | _, 0 => none
  | idx, fuel + 1 =>
    if (slots.getD idx emptySlot).state = .occupied then
      mo_insert_probe slots mask ((idx + 1) &&& mask) fuel
    else some idx

/-- Insert every pair into the slot array in file order, as the build
loop does.  `none` only if some insertion probe exhausts its fuel. -/
def mo_insert_all (mask : Nat) : List MoStringPair → List MoHashSlot → Option (List MoHashSlot)
  | [], slots => some slots
  | p :: ps, slots =>
    let h := mo_hash_string p.original
    match mo_insert_probe slots mask (h &&& mask) slots.length with
    | none => none
    | some j =>
      mo_insert_all mask ps
        (slots.set j ⟨p.original, p.translation, p.original_len, p.translation_len, h, .occupied⟩)

/-- Model of `mo_build_hash_table`.  The C computes the target size as
`(uint32)(num_strings / 0.75f) + 1`; that float computation equals the
exact `⌊4·n/3⌋ + 1` for every `n ≤ 2^22` (the quotient then stays below
`2^23`, where single-precision rounding cannot cross an integer), the
range the size theorems quantify over.  Returns `none` exactly when
the C returns `false` (no pairs), or on the unreachable fuel exhaustion. -/
def mo_build_hash_table (pairs : List MoStringPair) : Option MoHashTable :=
  if pairs.length = 0 then none
  else
    let target := 4 * pairs.length / 3 + 1
    let size := mo_next_power_of_two target
    let mask := size - 1
    match mo_insert_all mask pairs (List.replicate size emptySlot) with
    | none => none
    | some slots => some ⟨slots, size, mask⟩

/-- Lookup probe result: `some (some i)` found at slot `i`, `some none`
not found, `none` fuel exhausted (shown unreachable with
`slots.length` fuel by the claim C9 theorem). -/
def mo_find_hash_go (slots : List MoHashSlot) (mask : Nat) (str : List Byte) (len : Nat)
    (hash start : Nat) : Nat → Nat → Option (Option Nat) × Nat
  | _, 0 => (none, 0)
  | idx, fuel + 1 =>
    let slot := slots.getD idx emptySlot
    if slot.state = .empty then (some none, 0)
    else if slot.state = .occupied && slot.hash == hash && slot.original_len == len
        && slot.original == str then
      (some (some idx), 0)
    else
      -- occupied non-matching slots bump `hash_collisions` (the
      -- `hash_table_count < hash_table_size` guard holds after every build)
      let coll := if slot.state = .occupied then 1 else 0
      let idx1 := (idx + 1) &&& mask
      if idx1 = start then (some none, coll)
      else
        match mo_find_hash_go slots mask str len hash start idx1 fuel with
        | (r, c) => (r, c + coll)

/-- Model of `mo_find_string_hash`. -/
def mo_find_string_hash (t : MoHashTable) (str : List Byte) (len : Nat) (hash : Nat) :
    Option (Option Nat) × Nat :=
  if t.slots.length = 0 then (some none, 0)
  else
    let start := hash &&& t.mask
    mo_find_hash_go t.slots t.mask str len hash start start t.slots.length

/-! ## Loading a catalog -/

/-- The two accepted magic values. -/
def MO_MAGIC : Nat := 0x950412de

/-- Byte-reversed magic of an opposite-endian file. -/
def MO_MAGIC_REV : Nat := 0xde120495

/-- Resolve and validate the descriptors of indices `i, i+1, ...` (the
indices are passed as an explicit list so the validation loop can be
reasoned about by structural induction).  The bounds test reproduces
the C expression `orig_offset + orig_len + 1 > size` whose sum is
computed in `uint32_t` and therefore wraps at `2^32` — the subject of
claim C4. -/
def mo_resolve_pairs (data : List Byte) (size : Nat) (swap : Bool) (o t : Nat) :
    List Nat → Except MoError (List MoDesc × List MoStringPair)
  | [] => .ok ([], [])
  | i :: rest =>
    let origLen := readField data (o + 8 * i) swap
    let origOff := readField data (o + 8 * i + 4) swap
    let transLen := readField data (t + 8 * i) swap
    let transOff := readField data (t + 8 * i + 4) swap
    if (origOff + origLen + 1) % 4294967296 > size ∨
        (transOff + transLen + 1) % 4294967296 > size then
      .error .INVALID_FORMAT
    else
      match mo_resolve_pairs data size swap o t rest with
      | .error e => .error e
      | .ok (ds, ps) =>
        .ok (⟨origLen, origOff, transLen, transOff⟩ :: ds,
             ⟨(data.drop origOff).take origLen, (data.drop transOff).take transLen,
              origLen, transLen⟩ :: ps)

/-- Model of `mo_context_create_from_memory` for a given compile-time
search strategy.  Null `data`/`context` arguments are not representable
here; the remaining `MO_ERROR_INVALID_CONTEXT` trigger, `size <
sizeof(mo_header_t)`, is.  Allocation always succeeds in the model, so
`MO_ERROR_MEMORY` arises only where the C maps a failed
`mo_build_hash_table` to it (empty catalog in a hash build, plus the
fuel artifact shown unreachable). -/
def mo_context_create_from_memory (m : SearchMethod) (data : List Byte) :
    Except MoError MoContext :=
  let size := data.length
  if size < 28 then .error .INVALID_CONTEXT
  else
    let magic := loadU32 data 0
    if magic = MO_MAGIC ∨ magic = MO_MAGIC_REV then
      let swap := magic ≠ MO_MAGIC
      let num := readField data 8 swap
      let o := readField data 12 swap
      let t := readField data 16 swap
      if o + num * 8 > size ∨ t + num * 8 > size then .error .INVALID_FORMAT
      else
        match mo_resolve_pairs data size swap o t (List.range num) with
        | .error e => .error e
        | .ok (ds, ps) =>
          match m with
          | .linear => .ok ⟨data, size, num, ds, some ps, none⟩
          | .binary => .ok ⟨data, size, num, ds, some (List.insertionSort pairLe ps), none⟩
          | .hash =>
            match mo_build_hash_table ps with
            | none => .error .MEMORY
            | some ht => .ok ⟨data, size, num, ds, some ps, some ht⟩
    else .error .INVALID_FORMAT

/-! ## Cache, statistics and the translate surface -/

/-- One cache slot (`mo_cache_item_t`): the pointer identity of the
cached query, the cached translation's bytes, and (hash builds only)
the cached hash.  `none` models the zero-initialised slot whose
`original` pointer is `NULL` and therefore can never equal a query
pointer. -/
structure MoCacheItem where
  original : Nat
  translation : List Byte
  hash : Nat
deriving DecidableEq, Repr

/-- Statistics counters (`mo_stats_t`), each wrapping at `2^32`. -/
structure MoStats where
  total_lookups : Nat
  cache_hits : Nat
  cache_misses : Nat
  hash_collisions : Nat
  comparisons : Nat
deriving DecidableEq, Repr

/-- Mutable run state of a catalog: the 64-entry cache and the
statistics of a stats-enabled build. -/
structure MoRunState where
  cache : List (Option MoCacheItem)
  stats : MoStats
deriving DecidableEq, Repr

/-- State of a freshly created context (`calloc`ed cache, zero stats). -/
def initRunState : MoRunState := ⟨List.replicate 64 none, ⟨0, 0, 0, 0, 0⟩⟩

/-- A query as the C caller presents it: the pointer identity of
`original` and the `original_len` bytes it designates. -/
structure Query where
  ptr : Nat
  bytes : List Byte
deriving DecidableEq, Repr

/-- Value returned by `mo_translate_n`: either exactly the caller's
`original` pointer (the miss passthrough) or a pointer to a stored
translation with the given bytes. -/
inductive TrRes where
  | passthrough
  | found (t : List Byte)
deriving DecidableEq, Repr

/-- Bytes of a result for a query with bytes `b`. -/
def TrRes.bytesFor (r : TrRes) (b : List Byte) : List Byte :=
  match r with
  | .passthrough => b
  | .found t => t

/-- Wrapping uint32 increment. -/
def bump (x : Nat) : Nat := (x + 1) % 4294967296

/-- Wrapping uint32 addition. -/
def bumpBy (x d : Nat) : Nat := (x + d) % 4294967296

/-- Model of `mo_translate_n` for a given compile-time strategy in a
stats-enabled build.  Returns the result and the updated cache and
counters.  The argument-check path (`!context || !context->pairs ||
!original`) returns before touching any state. -/
def mo_translate_n (m : SearchMethod) (context : Option MoContext)
    (original : Option Query) (st : MoRunState) : TrRes × MoRunState :=
  match context with
  | none => (.passthrough, st)
  | some ctx =>
    match ctx.pairs with
    | none => (.passthrough, st)
    | some ps =>
      match original with
      | none => (.passthrough, st)
      | some q =>
        let len := q.bytes.length
        let stats1 := { st.stats with total_lookups := bump st.stats.total_lookups }
        let h := mo_hash_string q.bytes
        let slot := (match m with | .hash => h | _ => q.ptr) &&& 63
        let hit :=
          match st.cache.getD slot none with
          | none => false
          | some item =>
            match m with
            | .hash => item.original == q.ptr && item.hash == h
            | _ => item.original == q.ptr
        if hit then
          let item := (st.cache.getD slot none).getD ⟨0, [], 0⟩
          (.found item.translation,
           ⟨st.cache, { stats1 with cache_hits := bump stats1.cache_hits }⟩)
        else
          let stats2 := { stats1 with cache_misses := bump stats1.cache_misses }
          match m with
          | .linear =>
            match mo_find_string_linear ps q.bytes len with
            | (none, c) =>
              (.passthrough, ⟨st.cache, { stats2 with comparisons := bumpBy stats2.comparisons c }⟩)
            | (some i, c) =>
              let tr := (ps.getD i default).translation
              (.found tr,
               ⟨st.cache.set slot (some ⟨q.ptr, tr, 0⟩),
                { stats2 with comparisons := bumpBy stats2.comparisons c }⟩)
          | .binary =>
            match mo_find_string_binary ps q.bytes len with
            | (none, c) =>
              (.passthrough, ⟨st.cache, { stats2 with comparisons := bumpBy stats2.comparisons c }⟩)
            | (some i, c) =>
              let tr := (ps.getD i default).translation
              (.found tr,
               ⟨st.cache.set slot (some ⟨q.ptr, tr, 0⟩),
                { stats2 with comparisons := bumpBy stats2.comparisons c }⟩)
          | .hash =>
            let (res, c) :=
              match ctx.hashTable with
              | none => (some none, 0)
              | some t => mo_find_string_hash t q.bytes len h
            let stats3 := { stats2 with hash_collisions := bumpBy stats2.hash_collisions c }
            match res with
            | some (some i) =>
              let tr :=
                ((ctx.hashTable.getD ⟨[], 0, 0⟩).slots.getD i emptySlot).translation
              (.found tr, ⟨st.cache.set slot (some ⟨q.ptr, tr, h⟩), ⟨stats3.total_lookups,
                stats3.cache_hits, stats3.cache_misses, stats3.hash_collisions,
                stats3.comparisons⟩⟩)
            | _ =>
              -- `some none`: not found; `none` (fuel) is unreachable, see C9
              (.passthrough, ⟨st.cache, stats3⟩)

/-- Model of `mo_translate`: the same primitive, the query carrying the
`strlen` bytes of the pointer. -/
def mo_translate (m : SearchMethod) (context : Option MoContext)
    (original : Option Query) (st : MoRunState) : TrRes × MoRunState :=
  mo_translate_n m context original st

/-- Size of the stack key buffer of `mo_translate_cp`. -/
def MO_MAX_STRING_LENGTH : Nat := 4096

/-- Model of `mo_translate_cp`.  `keyPtr` is the pointer identity of the
fixed stack buffer `key` that holds the synthesized `ctx \x04 msg` keys;
both qualified lookups of one call go through this same pointer, which
is what the cache sees.  `contextStr` carries only bytes (its pointer is
never compared), `singular` and `plural` carry caller pointers because
the fallback lookups pass them through `mo_translate`.  The returned
value is the byte content of the returned pointer. -/
def mo_translate_cp (m : SearchMethod) (context : Option MoContext) (keyPtr : Nat)
    (contextStr : Option (List Byte)) (singular : Option Query) (plural : Option Query)
    (n : Nat) (st : MoRunState) : List Byte × MoRunState :=
  match context, singular with
  | none, _ => ([], st)
  | some _, none => ([], st)
  | some _, some s =>
    let keyBytes :=
      match contextStr with
      | some c => c ++ [(4 : Byte)] ++ s.bytes
      | none => s.bytes
    if keyBytes.length ≥ MO_MAX_STRING_LENGTH then (s.bytes, st)
    else
      let (r1, st1) := mo_translate_n m context (some ⟨keyPtr, keyBytes⟩) st
      let (resS, st2) :=
        if r1 = .passthrough ∧ contextStr ≠ none then
          let (r2, st2) := mo_translate m context (some s) st1
          (r2.bytesFor s.bytes, st2)
        else (r1.bytesFor keyBytes, st1)
      match plural with
      | some p =>
        if n ≠ 1 then
          let (pt, st3) :=
            match contextStr with
            | some c =>
              let key2 := c ++ [(4 : Byte)] ++ p.bytes
              if key2.length < MO_MAX_STRING_LENGTH then
                let (r3, st3) := mo_translate_n m context (some ⟨keyPtr, key2⟩) st2
                (some (r3, key2), st3)
              else (none, st2)
            | none => (none, st2)
          match pt with
          | some (.found t, _) => (t, st3)
          | _ =>
            -- `!plural_translation || plural_translation == key`
            let (r4, st4) := mo_translate m context (some p) st3
            (r4.bytesFor p.bytes, st4)
        else (resS, st2)
      | none => (resS, st2)

/-- Run a sequence of `mo_translate_n` queries against one catalog,
collecting the byte content of each returned pointer. -/
def mo_run (m : SearchMethod) (ctx : MoContext) (qs : List Query) (st : MoRunState) :
    List (List Byte) × MoRunState :=
  match qs with
  | [] => ([], st)
  | q :: rest =>
    let (r, st1) := mo_translate_n m (some ctx) (some q) st
    let (outs, st2) := mo_run m ctx rest st1
    (r.bytesFor q.bytes :: outs, st2)

/-! ## Specification-level predicates -/

/-- Cache- and strategy-free lookup over a pair array: translation of
the first matching pair. -/
def pureLookup (ps : List MoStringPair) (bytes : List Byte) : Option (List Byte) :=
  (ps.find? (fun p => pairMatches p bytes bytes.length)).map (·.translation)

/-- Every view has exactly its declared length (true of every catalog
whose descriptors pass the bounds check without `uint32` wraparound;
the C code reads `original_len` bytes from each view, so this is the
defined-behaviour envelope). -/
def wellFormed (ps : List MoStringPair) : Prop :=
  ∀ p ∈ ps, p.original.length = p.original_len ∧ p.translation.length = p.translation_len

/-- The original byte strings are pairwise distinct. -/
def distinctOriginals (ps : List MoStringPair) : Prop :=
  (ps.map (·.original)).Nodup

instance (ps : List MoStringPair) : Decidable (distinctOriginals ps) := by
  unfold distinctOriginals; infer_instance

instance (ps : List MoStringPair) : Decidable (wellFormed ps) := by
  unfold wellFormed; infer_instance

/-- Coherence of the cache with respect to a pointer-content assignment
`env`: every populated slot caches the translation that a strategy-free
lookup of its pointer's bytes produces.  This is the state invariant of
every run in which each pointer is always presented with the same
bytes. -/
def cacheOK (env : Nat → List Byte) (ps : List MoStringPair)
    (cache : List (Option MoCacheItem)) : Prop :=
  ∀ o ∈ cache, ∀ it, o = some it → pureLookup ps (env it.original) = some it.translation

/-- Index reached after `k` linear-probing steps from `start`. -/
def probeIdx (start size k : Nat) : Nat := (start + k) % size

/-- Number of probing steps from `a` to `b` in a table of `size` slots. -/
def probeDist (a b size : Nat) : Nat := (b + size - a) % size

/-- Slot `i` is occupied. -/
def slotOcc (slots : List MoHashSlot) (i : Nat) : Prop :=
  (slots.getD i emptySlot).state = .occupied

instance (slots : List MoHashSlot) (i : Nat) : Decidable (slotOcc slots i) := by
  unfold slotOcc; infer_instance

/-- Number of occupied slots. -/
def occCount (slots : List MoHashSlot) : Nat :=
  (slots.filter (fun s => s.state == .occupied)).length

/-- Well-formedness of a built slot array over the source pair array
`ps0`: occupied slots store pairs of `ps0` with their djb2 hash, no
slot is `deleted`, the probe path from a stored slot's home position to
the slot is fully occupied, and every pair is stored somewhere. -/
def tableWF (ps0 : List MoStringPair) (slots : List MoHashSlot) : Prop :=
  (∀ i < slots.length, slotOcc slots i →
      ∃ p ∈ ps0, (slots.getD i emptySlot).original = p.original ∧
        (slots.getD i emptySlot).translation = p.translation ∧
        (slots.getD i emptySlot).original_len = p.original_len ∧
        (slots.getD i emptySlot).hash = mo_hash_string p.original) ∧
  (∀ i < slots.length, (slots.getD i emptySlot).state ≠ .deleted) ∧
  (∀ i < slots.length, slotOcc slots i →
      ∀ k < probeDist ((slots.getD i emptySlot).hash % slots.length) i slots.length,
        slotOcc slots
          (probeIdx ((slots.getD i emptySlot).hash % slots.length) slots.length k)) ∧
  (∀ p ∈ ps0, ∃ i, i < slots.length ∧ slotOcc slots i ∧
      (slots.getD i emptySlot).original = p.original ∧
      (slots.getD i emptySlot).translation = p.translation)

/-- Being the least power of two that is at least `m` — the phrasing of
the specification's table-size formula. -/
def IsSmallestPow2Geq (m s : Nat) : Prop :=
  (∃ k, s = 2 ^ k) ∧ m ≤ s ∧ ∀ u, (∃ k, u = 2 ^ k) → m ≤ u → s ≤ u

/-! ## Concrete example inputs -/

instance {ε : Type u} {α : Type v} [DecidableEq ε] [DecidableEq α] :
    DecidableEq (Except ε α) := fun x y =>
  match x, y with
  | .ok a, .ok b =>
    if h : a = b then .isTrue (by rw [h])
    else .isFalse (by intro hh; cases hh; exact h rfl)
  | .ok _, .error _ => .isFalse (by intro h; cases h)
  | .error _, .ok _ => .isFalse (by intro h; cases h)
  | .error a, .error b =>
    if h : a = b then .isTrue (by rw [h])
    else .isFalse (by intro hh; cases hh; exact h rfl)

instance : Inhabited MoContext := ⟨⟨[], 0, 0, [], none, none⟩⟩

instance : Inhabited MoHashTable := ⟨⟨[], 0, 0⟩⟩

/-- Byte from a numeric literal. -/
def byteOf (n : Nat) : Byte := ⟨n % 256, Nat.mod_lt _ (by decide)⟩

/-- Little-endian encoding of a 32-bit value. -/
def u32le (v : Nat) : List Byte :=
  [byteOf v, byteOf (v / 256), byteOf (v / 65536), byteOf (v / 16777216)]

/-- Byte-string literal helper. -/
def strB (s : List Nat) : List Byte := s.map byteOf

/-- Catalog produced by a successful load (junk default otherwise). -/
def ctxOf (m : SearchMethod) (file : List Byte) : MoContext :=
  ((mo_context_create_from_memory m file).toOption).getD default

/-- A valid `.mo` image with two pairs whose originals are both `"a"`,
translated to `"X"` and `"Y"` respectively. -/
def exFileDup : List Byte :=
  u32le 0x950412de ++ u32le 0 ++ u32le 2 ++ u32le 28 ++ u32le 44 ++ u32le 0 ++ u32le 0 ++
  u32le 1 ++ u32le 60 ++ u32le 1 ++ u32le 62 ++
  u32le 1 ++ u32le 64 ++ u32le 1 ++ u32le 66 ++
  strB [97, 0, 97, 0, 88, 0, 89, 0]

/-- A valid `.mo` image with distinct originals `"ab" ↦ "U"` and
`"abc" ↦ "V"`. -/
def exFileGood : List Byte :=
  u32le 0x950412de ++ u32le 0 ++ u32le 2 ++ u32le 28 ++ u32le 44 ++ u32le 0 ++ u32le 0 ++
  u32le 2 ++ u32le 60 ++ u32le 3 ++ u32le 63 ++
  u32le 1 ++ u32le 67 ++ u32le 1 ++ u32le 69 ++
  strB [97, 98, 0, 97, 98, 99, 0, 85, 0, 86, 0]

/-- A 46-byte image whose single original descriptor declares
`length = 0xFFFFFFFF, offset = 1`: the `uint32` bounds check wraps to
`1 > 46 = false` and the file is accepted although the declared view
extends astronomically past the buffer. -/
def exFileWrap : List Byte :=
  u32le 0x950412de ++ u32le 0 ++ u32le 1 ++ u32le 28 ++ u32le 36 ++ u32le 0 ++ u32le 0 ++
  u32le 4294967295 ++ u32le 1 ++
  u32le 1 ++ u32le 44 ++
  strB [88, 0]

/-- A valid image with three distinct one-byte originals, used to probe
the hash-table sizing formula at `num_strings = 3`. -/
def exFile3 : List Byte :=
  u32le 0x950412de ++ u32le 0 ++ u32le 3 ++ u32le 28 ++ u32le 52 ++ u32le 0 ++ u32le 0 ++
  u32le 1 ++ u32le 76 ++ u32le 1 ++ u32le 78 ++ u32le 1 ++ u32le 80 ++
  u32le 1 ++ u32le 82 ++ u32le 1 ++ u32le 84 ++ u32le 1 ++ u32le 86 ++
  strB [97, 0, 98, 0, 99, 0, 88, 0, 89, 0, 90, 0]

/-- The pair array `exFileDup` resolves to: both originals are `"a"`. -/
def exPairsDup : List MoStringPair :=
  [⟨[97], [88], 1, 1⟩, ⟨[97], [89], 1, 1⟩]

/-- The pair array `exFileGood` resolves to. -/
def exPairsGood : List MoStringPair :=
  [⟨[97, 98], [85], 2, 1⟩, ⟨[97, 98, 99], [86], 3, 1⟩]

/-- The pair array `exFile3` resolves to. -/
def exPairs3 : List MoStringPair :=
  [⟨[97], [88], 1, 1⟩, ⟨[98], [89], 1, 1⟩, ⟨[99], [90], 1, 1⟩]

/-- A valid image holding the two context-qualified entries
`"m\x04s" ↦ "T1"` and `"m\x04p" ↦ "T2"`. -/
def exFileCtx : List Byte :=
  u32le 0x950412de ++ u32le 0 ++ u32le 2 ++ u32le 28 ++ u32le 44 ++ u32le 0 ++ u32le 0 ++
  u32le 3 ++ u32le 60 ++ u32le 3 ++ u32le 64 ++
  u32le 2 ++ u32le 68 ++ u32le 2 ++ u32le 71 ++
  strB [109, 4, 115, 0, 109, 4, 112, 0, 84, 49, 0, 84, 50, 0]

/-- The translation bytes the compiled-in search strategy produces for
query bytes `b` on a cache miss, exactly as the miss path of
`mo_translate_n` computes them. -/
def searchResult (m : SearchMethod) (ctx : MoContext) (psA : List MoStringPair)
    (b : List Byte) : Option (List Byte) :=
  match m with
  | .linear => ((mo_find_string_linear psA b b.length).1).map
      (fun i => (psA.getD i default).translation)
  | .binary => ((mo_find_string_binary psA b b.length).1).map
      (fun i => (psA.getD i default).translation)
  | .hash =>
    match (match ctx.hashTable with
           | none => ((some none : Option (Option Nat)), 0)
           | some t => mo_find_string_hash t b b.length (mo_hash_string b)).1 with
    | some (some i) => some (((ctx.hashTable.getD default).slots.getD i emptySlot).translation)
    | _ => none

/-- The file-order pair array a given input resolves to, independent of
the compiled-in strategy (the validation prefix of
`mo_context_create_from_memory`). -/
def resolvedPairs (data : List Byte) : Option (List MoStringPair) :=
  if data.length < 28 then none
  else
    let magic := loadU32 data 0
    if magic = MO_MAGIC ∨ magic = MO_MAGIC_REV then
      let swap := magic ≠ MO_MAGIC
      let num := readField data 8 swap
      let o := readField data 12 swap
      let t := readField data 16 swap
      if o + num * 8 > data.length ∨ t + num * 8 > data.length then none
      else
        match mo_resolve_pairs data data.length swap o t (List.range num) with
        | .error _ => none
        | .ok (_, ps) => some ps
    else none

/-- Invariant of the statistics counters along any query sequence. -/
def statsInv (s : MoStats) : Prop :=
  s.cache_hits < 4294967296 ∧ s.cache_misses < 4294967296 ∧
    s.total_lookups = (s.cache_hits + s.cache_misses) % 4294967296

/-! # Theorems -/

/-- Claim C1, counterexample.  `exFileDup` loads successfully into a
catalog whose two originals are both `"a"` (`[97]`) with translations
`"X"` (`[88]`) and `"Y"` (`[89]`): in a linear build, looking up the
1-st original with its exact stored length returns the 0-th
translation `[88]`, not the 1-st translation `[89]`, so the round-trip
identity fails at index 1. -/
theorem C1_counterexample :
    mo_context_create_from_memory .linear exFileDup = .ok (ctxOf .linear exFileDup) ∧
    (ctxOf .linear exFileDup).pairs =
      some [⟨[97], [88], 1, 1⟩, ⟨[97], [89], 1, 1⟩] ∧
    ((mo_translate_n .linear (some (ctxOf .linear exFileDup))
        (some ⟨7, [97]⟩) initRunState).1).bytesFor [97] = [88] ∧
    ([88] : List Byte) ≠ [89] := by decide

/-- Claim C2, counterexample.  On `exFileGood` (originals `"ab"` and
`"abc"`, pairwise distinct) the two-query sequence that passes the same
pointer `5` first with length 2 and then with length 3 returns
`["U", "U"]` under the linear build (the second call hits the
pointer-keyed cache slot written by the first) but `["U", "V"]` under
the hash build (whose cache key also includes the query hash), so the
returned translation bytes are not identical across strategies. -/
theorem C2_counterexample :
    mo_context_create_from_memory .linear exFileGood = .ok (ctxOf .linear exFileGood) ∧
    mo_context_create_from_memory .hash exFileGood = .ok (ctxOf .hash exFileGood) ∧
    (ctxOf .linear exFileGood).pairs =
      some [⟨[97, 98], [85], 2, 1⟩, ⟨[97, 98, 99], [86], 3, 1⟩] ∧
    distinctOriginals [⟨[97, 98], [85], 2, 1⟩, ⟨[97, 98, 99], [86], 3, 1⟩] ∧
    (mo_run .linear (ctxOf .linear exFileGood)
        [⟨5, [97, 98]⟩, ⟨5, [97, 98, 99]⟩] initRunState).1 = [[85], [85]] ∧
    (mo_run .hash (ctxOf .hash exFileGood)
        [⟨5, [97, 98]⟩, ⟨5, [97, 98, 99]⟩] initRunState).1 = [[85], [86]] ∧
    ([[85], [85]] : List (List Byte)) ≠ [[85], [86]] := by decide

/-- Claim C4, failing input.  `exFileWrap` is 46 bytes long and its
only original descriptor declares `offset = 1, length = 0xFFFFFFFF`;
the C bounds check computes `1 + 0xFFFFFFFF + 1` in `uint32`, wraps to
`1 ≤ 46`, and accepts the file, although
`orig_offset + orig_len + 1 = 2^32 + 1` computed without wraparound
exceeds the file size — the invariant the loader is meant to enforce
does not hold for this successfully loaded catalog. -/
theorem C4_wraparound_accepted :
    mo_context_create_from_memory .linear exFileWrap = .ok (ctxOf .linear exFileWrap) ∧
    (ctxOf .linear exFileWrap).descs = [⟨4294967295, 1, 1, 44⟩] ∧
    exFileWrap.length = 46 ∧
    (1 : Nat) + 4294967295 + 1 > 46 := by decide

/-- Claim C5, counterexample.  For `num_strings = 3` the code computes
`(uint32)(3 / 0.75f) + 1 = 5` and rounds up to `8`, while the smallest
power of two at least `⌈3 / 0.75⌉ = 4` is `4`, so the built table size
is not the value the claim states. -/
theorem C5_counterexample :
    mo_context_create_from_memory .hash exFile3 = .ok (ctxOf .hash exFile3) ∧
    (ctxOf .hash exFile3).numStrings = 3 ∧
    ((ctxOf .hash exFile3).hashTable.getD default).size = 8 ∧
    ¬ IsSmallestPow2Geq ((4 * 3 + 2) / 3) ((ctxOf .hash exFile3).hashTable.getD default).size := by
  refine ⟨by decide, by decide, by decide, ?_⟩
  intro h
  have h4 := h.2.2 4 ⟨2, by norm_num⟩ (by norm_num)
  rw [show ((ctxOf .hash exFile3).hashTable.getD default).size = 8 from by decide] at h4
  omega

/-- Claim C6, counterexample.  The empty input (size `0 < 28`) makes
`mo_context_create_from_memory` fail with `MO_ERROR_INVALID_CONTEXT`,
an error kind distinct from both `InvalidFormat` and `Memory`. -/
theorem C6_counterexample :
    mo_context_create_from_memory .linear [] = .error .INVALID_CONTEXT ∧
    MoError.INVALID_CONTEXT ≠ MoError.INVALID_FORMAT ∧
    MoError.INVALID_CONTEXT ≠ MoError.MEMORY := by decide

/-- Claim C7, counterexample.  `exFileCtx` maps `"m\x04s" ↦ "T1"` and
`"m\x04p" ↦ "T2"`.  With context `"m"`, singular `"s"`, plural `"p"`
and `n = 2`, a linear build returns `"T1"`: the successful
context-qualified singular lookup caches the key buffer's pointer, and
the context-qualified plural lookup through the same buffer hits that
stale slot instead of finding `"T2"`. -/
theorem C7_counterexample :
    mo_context_create_from_memory .linear exFileCtx = .ok (ctxOf .linear exFileCtx) ∧
    (ctxOf .linear exFileCtx).pairs =
      some [⟨[109, 4, 115], [84, 49], 3, 2⟩, ⟨[109, 4, 112], [84, 50], 3, 2⟩] ∧
    pureLookup [⟨[109, 4, 115], [84, 49], 3, 2⟩, ⟨[109, 4, 112], [84, 50], 3, 2⟩]
      [109, 4, 112] = some [84, 50] ∧
    (mo_translate_cp .linear (some (ctxOf .linear exFileCtx)) 1000 (some [109])
        (some ⟨7, [115]⟩) (some ⟨8, [112]⟩) 2 initRunState).1 = [84, 49] ∧
    ([84, 49] : List Byte) ≠ [84, 50] := by decide

/-- Claim C8, counterexample.  A call whose `original` argument is null
returns before the statistics block: `total_lookups` stays `0` instead
of being incremented, so not every call increments it. -/
theorem C8_counterexample :
    mo_context_create_from_memory .linear exFileGood = .ok (ctxOf .linear exFileGood) ∧
    (mo_translate_n .linear (some (ctxOf .linear exFileGood)) none
        initRunState).2.stats.total_lookups = 0 ∧
    (0 : Nat) ≠ 0 + 1 := by decide

/-- Unfolding lemma: a null context passes through untouched. -/
theorem translate_n_none_ctx (m : SearchMethod) (original : Option Query) (st : MoRunState) :
    mo_translate_n m none original st = (.passthrough, st) := rfl

/-- Unfolding lemma: a null pair array passes through untouched. -/
theorem translate_n_none_pairs (m : SearchMethod) (ctx : MoContext) (hp : ctx.pairs = none)
    (original : Option Query) (st : MoRunState) :
    mo_translate_n m (some ctx) original st = (.passthrough, st) := by
  simp [mo_translate_n, hp]

/-- Unfolding lemma: a null original passes through untouched. -/
theorem translate_n_none_orig (m : SearchMethod) (context : Option MoContext)
    (st : MoRunState) :
    mo_translate_n m context none st = (.passthrough, st) := by
  cases context with
  | none => rfl
  | some ctx => cases hctx : ctx.pairs <;> simp [mo_translate_n, hctx]

/-- Claim C10.  When `context` is null, `context->pairs` is null, or
`original` is null, `mo_translate_n` returns its `original` argument
unchanged (the passthrough) and leaves the whole run state — every
cache slot and every statistics counter — untouched. -/
theorem C10_invalid_args (m : SearchMethod) (context : Option MoContext)
    (original : Option Query) (st : MoRunState)
    (h : context = none ∨ (∃ ctx, context = some ctx ∧ ctx.pairs = none) ∨ original = none) :
    mo_translate_n m context original st = (.passthrough, st) := by
  rcases h with rfl | ⟨ctx, rfl, hp⟩ | rfl
  · exact translate_n_none_ctx ..
  · exact translate_n_none_pairs _ _ hp ..
  · exact translate_n_none_orig ..

/-- Witness for C10 at a concrete null-context call. -/
theorem C10_witness :
    mo_translate_n .linear none (some ⟨0, []⟩) initRunState = (.passthrough, initRunState) :=
  C10_invalid_args .linear none (some ⟨0, []⟩) initRunState (Or.inl rfl)

/-- The descriptor-validation loop only ever produces a result or
`MO_ERROR_INVALID_FORMAT`. -/
theorem mo_resolve_pairs_ok_or_invalid (data : List Byte) (size : Nat) (swap : Bool)
    (o t : Nat) (idxs : List Nat) :
    (∃ r, mo_resolve_pairs data size swap o t idxs = .ok r) ∨
      mo_resolve_pairs data size swap o t idxs = .error .INVALID_FORMAT := by
  induction idxs with
  | nil => exact .inl ⟨_, rfl⟩
  | cons i rest ih =>
    rcases ih with ⟨⟨ds, ps⟩, hr⟩ | hr
    · simp only [mo_resolve_pairs]
      rw [hr]
      split
      · exact .inr rfl
      · exact .inl ⟨_, rfl⟩
    · simp only [mo_resolve_pairs]
      rw [hr]
      split
      · exact .inr rfl
      · exact .inr rfl

/-- The only error the descriptor-validation loop produces is
`MO_ERROR_INVALID_FORMAT`. -/
theorem mo_resolve_pairs_error (data : List Byte) (size : Nat) (swap : Bool)
    (o t : Nat) (idxs : List Nat) (e : MoError)
    (h : mo_resolve_pairs data size swap o t idxs = .error e) : e = .INVALID_FORMAT := by
  rcases mo_resolve_pairs_ok_or_invalid data size swap o t idxs with ⟨r, hr⟩ | hr
  · rw [hr] at h
    cases h
  · rw [hr] at h
    cases h
    rfl

/-- Claim C6, amended.  `mo_context_create_from_memory` either returns
a catalog or fails with `InvalidFormat`, `Memory`, or — for the
argument check the claim omits — `InvalidContext`, which (null
pointers aside) occurs exactly when the input is shorter than the
28-byte header. -/
theorem C6_error_kinds (m : SearchMethod) (data : List Byte) :
    (∃ c, mo_context_create_from_memory m data = .ok c) ∨
    mo_context_create_from_memory m data = .error .INVALID_FORMAT ∨
    mo_context_create_from_memory m data = .error .MEMORY ∨
    (mo_context_create_from_memory m data = .error .INVALID_CONTEXT ∧ data.length < 28) := by
  simp only [mo_context_create_from_memory]
  split
  · next h => exact .inr (.inr (.inr ⟨rfl, h⟩))
  · split
    · split
      · exact .inr (.inl rfl)
      · split
        · next e heq =>
          cases mo_resolve_pairs_error _ _ _ _ _ _ _ heq
          exact .inr (.inl rfl)
        · cases m with
          | linear => exact .inl ⟨_, rfl⟩
          | binary => exact .inl ⟨_, rfl⟩
          | hash =>
            dsimp only
            split
            · exact .inr (.inr (.inl rfl))
            · exact .inl ⟨_, rfl⟩
    · exact .inr (.inl rfl)

/-- A call that passes the parameter check increments `total_lookups`
once, and exactly one of `cache_hits`/`cache_misses` once. -/
theorem mo_translate_n_stats_delta (m : SearchMethod) (ctx : MoContext)
    (ps : List MoStringPair) (hp : ctx.pairs = some ps) (q : Query) (st : MoRunState) :
    (mo_translate_n m (some ctx) (some q) st).2.stats.total_lookups
        = bump st.stats.total_lookups ∧
    (((mo_translate_n m (some ctx) (some q) st).2.stats.cache_hits
          = bump st.stats.cache_hits ∧
      (mo_translate_n m (some ctx) (some q) st).2.stats.cache_misses
          = st.stats.cache_misses) ∨
     ((mo_translate_n m (some ctx) (some q) st).2.stats.cache_hits
          = st.stats.cache_hits ∧
      (mo_translate_n m (some ctx) (some q) st).2.stats.cache_misses
          = bump st.stats.cache_misses)) := by
  simp only [mo_translate_n, hp]
  split
  · exact ⟨rfl, .inl ⟨rfl, rfl⟩⟩
  · cases m <;> (repeat' split) <;> exact ⟨rfl, .inr ⟨rfl, rfl⟩⟩

/-- Every call either leaves the statistics unchanged (argument-check
path) or performs the per-call increments. -/
theorem mo_translate_n_stats_cases (m : SearchMethod) (context : Option MoContext)
    (original : Option Query) (st : MoRunState) :
    (mo_translate_n m context original st).2.stats = st.stats ∨
    ((mo_translate_n m context original st).2.stats.total_lookups
        = bump st.stats.total_lookups ∧
     (((mo_translate_n m context original st).2.stats.cache_hits
          = bump st.stats.cache_hits ∧
       (mo_translate_n m context original st).2.stats.cache_misses
          = st.stats.cache_misses) ∨
      ((mo_translate_n m context original st).2.stats.cache_hits
          = st.stats.cache_hits ∧
       (mo_translate_n m context original st).2.stats.cache_misses
          = bump st.stats.cache_misses))) := by
  match context with
  | none => exact .inl (by rw [translate_n_none_ctx])
  | some ctx =>
    match hctx : ctx.pairs with
    | none => exact .inl (by rw [translate_n_none_pairs m ctx hctx])
    | some ps =>
      match original with
      | none => exact .inl (by rw [translate_n_none_orig])
      | some q => exact .inr (mo_translate_n_stats_delta m ctx ps hctx q st)

/-- The statistics invariant is preserved by every call. -/
theorem mo_translate_n_statsInv (m : SearchMethod) (context : Option MoContext)
    (original : Option Query) (st : MoRunState) (h : statsInv st.stats) :
    statsInv ((mo_translate_n m context original st).2.stats) := by
  obtain ⟨h1, h2, h3⟩ := h
  rcases mo_translate_n_stats_cases m context original st with heq | ⟨ht, hd⟩
  · rw [heq]; exact ⟨h1, h2, h3⟩
  · rcases hd with ⟨hh, hm2⟩ | ⟨hh, hm2⟩ <;>
      refine ⟨?_, ?_, ?_⟩ <;> simp only [bump, ht, hh, hm2, h3] <;> omega

/-- The statistics invariant holds after any query sequence. -/
theorem mo_run_statsInv (m : SearchMethod) (ctx : MoContext) (qs : List Query)
    (st : MoRunState) (h : statsInv st.stats) :
    statsInv ((mo_run m ctx qs st).2.stats) := by
  induction qs generalizing st with
  | nil => exact h
  | cons q rest ih =>
    rcases htr : mo_translate_n m (some ctx) (some q) st with ⟨r, st1⟩
    rcases hrun : mo_run m ctx rest st1 with ⟨outs, st2⟩
    simp only [mo_run, htr, hrun]
    have hst1 : statsInv st1.stats := by
      have := mo_translate_n_statsInv m (some ctx) (some q) st ⟨h.1, h.2.1, h.2.2⟩
      rwa [htr] at this
    have := ih st1 hst1
    rwa [hrun] at this

/-- Claim C8, amended.  Every `mo_translate_n` call that passes the
parameter check (non-null context, pair array and original — the
unamended claim also counted the argument-check path, which increments
nothing) bumps `total_lookups` by one and exactly one of
`cache_hits`/`cache_misses` by one; consequently after any query
sequence from a fresh catalog `total_lookups` equals
`cache_hits + cache_misses` (as stored `uint32` counters). -/
theorem C8_stats_accounting (m : SearchMethod) (ctx : MoContext)
    (ps : List MoStringPair) (hp : ctx.pairs = some ps) (q : Query) (st : MoRunState)
    (qs : List Query) :
    ((mo_translate_n m (some ctx) (some q) st).2.stats.total_lookups
        = bump st.stats.total_lookups ∧
     (((mo_translate_n m (some ctx) (some q) st).2.stats.cache_hits
          = bump st.stats.cache_hits ∧
       (mo_translate_n m (some ctx) (some q) st).2.stats.cache_misses
          = st.stats.cache_misses) ∨
      ((mo_translate_n m (some ctx) (some q) st).2.stats.cache_hits
          = st.stats.cache_hits ∧
       (mo_translate_n m (some ctx) (some q) st).2.stats.cache_misses
          = bump st.stats.cache_misses))) ∧
    (mo_run m ctx qs initRunState).2.stats.total_lookups =
      ((mo_run m ctx qs initRunState).2.stats.cache_hits +
        (mo_run m ctx qs initRunState).2.stats.cache_misses) % 4294967296 := by
  refine ⟨mo_translate_n_stats_delta m ctx ps hp q st, ?_⟩
  exact (mo_run_statsInv m ctx qs initRunState (by constructor <;> simp [initRunState])).2.2

/-- Witness for the amended C8 at a concrete catalog, query and trace. -/
theorem C8_witness :
    (ctxOf .linear exFileGood).pairs =
      some [⟨[97, 98], [85], 2, 1⟩, ⟨[97, 98, 99], [86], 3, 1⟩] ∧
    ((mo_translate_n .linear (some (ctxOf .linear exFileGood)) (some ⟨5, [97, 98]⟩)
          initRunState).2.stats.total_lookups = bump initRunState.stats.total_lookups ∧
      (((mo_translate_n .linear (some (ctxOf .linear exFileGood)) (some ⟨5, [97, 98]⟩)
            initRunState).2.stats.cache_hits = bump initRunState.stats.cache_hits ∧
        (mo_translate_n .linear (some (ctxOf .linear exFileGood)) (some ⟨5, [97, 98]⟩)
            initRunState).2.stats.cache_misses = initRunState.stats.cache_misses) ∨
       ((mo_translate_n .linear (some (ctxOf .linear exFileGood)) (some ⟨5, [97, 98]⟩)
            initRunState).2.stats.cache_hits = initRunState.stats.cache_hits ∧
        (mo_translate_n .linear (some (ctxOf .linear exFileGood)) (some ⟨5, [97, 98]⟩)
            initRunState).2.stats.cache_misses = bump initRunState.stats.cache_misses))) ∧
    (mo_run .linear (ctxOf .linear exFileGood) [⟨5, [97, 98]⟩, ⟨5, [97, 98]⟩]
        initRunState).2.stats.total_lookups =
      ((mo_run .linear (ctxOf .linear exFileGood) [⟨5, [97, 98]⟩, ⟨5, [97, 98]⟩]
          initRunState).2.stats.cache_hits +
        (mo_run .linear (ctxOf .linear exFileGood) [⟨5, [97, 98]⟩, ⟨5, [97, 98]⟩]
          initRunState).2.stats.cache_misses) % 4294967296 :=
  ⟨by decide,
   C8_stats_accounting .linear (ctxOf .linear exFileGood)
     [⟨[97, 98], [85], 2, 1⟩, ⟨[97, 98, 99], [86], 3, 1⟩] (by decide) ⟨5, [97, 98]⟩
     initRunState [⟨5, [97, 98]⟩, ⟨5, [97, 98]⟩]⟩

/-- Bit `i` of `smear32 a` is set exactly when some bit of `a` within
distance 31 above `i` is set. -/
theorem smear32_testBit (a i : Nat) :
    (smear32 a).testBit i = true ↔ ∃ j, j < 32 ∧ a.testBit (i + j) = true := by
  have step : ∀ y k : Nat,
      (∀ i2, y.testBit i2 = true ↔ ∃ j, j < k ∧ a.testBit (i2 + j) = true) →
      ∀ i2, ((y ||| (y >>> k)).testBit i2 = true ↔
        ∃ j, j < 2 * k ∧ a.testBit (i2 + j) = true) := by
    intro y k hy i2
    rw [Nat.testBit_or, Bool.or_eq_true, Nat.testBit_shiftRight, hy, hy]
    constructor
    · rintro (⟨j, hj, hb⟩ | ⟨j, hj, hb⟩)
      · exact ⟨j, by omega, hb⟩
      · exact ⟨k + j, by omega, by rwa [show i2 + (k + j) = k + i2 + j by omega]⟩
    · rintro ⟨j, hj, hb⟩
      by_cases hjk : j < k
      · exact .inl ⟨j, hjk, hb⟩
      · exact .inr ⟨j - k, by omega, by rwa [show k + i2 + (j - k) = i2 + j by omega]⟩
  have base : ∀ i2, a.testBit i2 = true ↔ ∃ j, j < 1 ∧ a.testBit (i2 + j) = true := by
    intro i2
    constructor
    · intro hb
      exact ⟨0, by omega, by simpa using hb⟩
    · rintro ⟨j, hj, hb⟩
      have hj0 : j = 0 := by omega
      subst hj0
      simpa using hb
  exact step _ 16 (step _ 8 (step _ 4 (step _ 2 (step _ 1 base)))) i

/-- The most significant bit of a nonzero number is set. -/
theorem testBit_size_pred (a : Nat) (h : a ≠ 0) : a.testBit (a.size - 1) = true := by
  have hs : a.size ≠ 0 := by simpa [Nat.size_eq_zero] using h
  have h1 : 2 ^ (a.size - 1) ≤ a := Nat.lt_size.mp (by omega)
  have h2 : a < 2 ^ a.size := Nat.lt_size_self a
  have hpos : 0 < 2 ^ (a.size - 1) := pow_pos (by norm_num) _
  rw [Nat.testBit_to_div_mod]
  have hq : a / 2 ^ (a.size - 1) = 1 := by
    have hlow : 1 ≤ a / 2 ^ (a.size - 1) := (Nat.le_div_iff_mul_le hpos).mpr (by simpa using h1)
    have hhigh : a / 2 ^ (a.size - 1) < 2 := by
      rw [Nat.div_lt_iff_lt_mul hpos]
      have : (2 : Nat) ^ a.size = 2 * 2 ^ (a.size - 1) := by
        rw [← pow_succ']
        congr 1
        omega
      omega
    omega
  simp [hq]

/-- The or-shift cascade produces `2^(bit length) - 1` for any 32-bit
input. -/
theorem smear32_eq (a : Nat) (ha : a < 2 ^ 32) : smear32 a = 2 ^ a.size - 1 := by
  apply Nat.eq_of_testBit_eq
  intro i
  rw [Nat.testBit_two_pow_sub_one]
  by_cases hi : i < a.size
  · have ha0 : a ≠ 0 := by
      intro h0
      subst h0
      simp [Nat.size_zero] at hi
    rw [decide_eq_true hi, (smear32_testBit a i)]
    have hsz : a.size ≤ 32 := Nat.size_le.mpr ha
    refine ⟨a.size - 1 - i, by omega, ?_⟩
    rw [show i + (a.size - 1 - i) = a.size - 1 by omega]
    exact testBit_size_pred a ha0
  · rw [decide_eq_false hi]
    cases hb : (smear32 a).testBit i with
    | false => rfl
    | true =>
      exfalso
      obtain ⟨j, _, hj⟩ := (smear32_testBit a i).mp hb
      have : a < 2 ^ (i + j) :=
        lt_of_lt_of_le (Nat.lt_size_self a) (Nat.pow_le_pow_right (by norm_num) (by omega))
      rw [Nat.testBit_lt_two_pow this] at hj
      cases hj

/-- For arguments up to `2^31` the model of `mo_next_power_of_two`
computes `2^(size (m-1))`, with no wraparound. -/
theorem mo_next_power_of_two_eq (m : Nat) (h1 : 1 ≤ m) (h2 : m ≤ 2 ^ 31) :
    mo_next_power_of_two m = 2 ^ (m - 1).size := by
  unfold mo_next_power_of_two
  have hm : (m + 4294967295) % 4294967296 = m - 1 := by omega
  rw [hm, smear32_eq (m - 1) (by omega)]
  have hsz : (m - 1).size ≤ 31 := Nat.size_le.mpr (by omega)
  have hle : 2 ^ (m - 1).size ≤ 2 ^ 31 := Nat.pow_le_pow_right (by norm_num) hsz
  have hpos : 0 < 2 ^ (m - 1).size := pow_pos (by norm_num) _
  rw [Nat.sub_add_cancel hpos]
  exact Nat.mod_eq_of_lt (by omega)

/-- For arguments up to `2^31`, `mo_next_power_of_two` is the least
power of two at least its argument. -/
theorem mo_next_power_of_two_least (m : Nat) (h1 : 1 ≤ m) (h2 : m ≤ 2 ^ 31) :
    IsSmallestPow2Geq m (mo_next_power_of_two m) := by
  rw [mo_next_power_of_two_eq m h1 h2]
  refine ⟨⟨(m - 1).size, rfl⟩, ?_, ?_⟩
  · have := Nat.lt_size_self (m - 1)
    omega
  · rintro u ⟨k, rfl⟩ hu
    exact Nat.pow_le_pow_right (by norm_num) (Nat.size_le.mpr (by omega))

/-- Whatever its argument, `mo_next_power_of_two` returns zero or a
power of two not exceeding `2^31`. -/
theorem mo_next_power_of_two_pow2 (n : Nat) :
    mo_next_power_of_two n = 0 ∨ ∃ k, k ≤ 31 ∧ mo_next_power_of_two n = 2 ^ k := by
  unfold mo_next_power_of_two
  have halt : (n + 4294967295) % 4294967296 < 2 ^ 32 := by omega
  rw [smear32_eq _ halt]
  have hsz : ((n + 4294967295) % 4294967296).size ≤ 32 := Nat.size_le.mpr halt
  have hpos : 0 < 2 ^ ((n + 4294967295) % 4294967296).size := pow_pos (by norm_num) _
  rw [Nat.sub_add_cancel hpos]
  rcases Nat.lt_or_ge ((n + 4294967295) % 4294967296).size 32 with hlt | hge
  · right
    refine ⟨((n + 4294967295) % 4294967296).size, by omega, ?_⟩
    refine Nat.mod_eq_of_lt ?_
    calc 2 ^ ((n + 4294967295) % 4294967296).size
        < 2 ^ 32 := Nat.pow_lt_pow_right (by norm_num) hlt
      _ = 4294967296 := by norm_num
  · left
    have h32 : ((n + 4294967295) % 4294967296).size = 32 := by omega
    rw [h32]
    norm_num

/-- A successful `mo_insert_all` preserves the slot-array length. -/
theorem mo_insert_all_length (mask : Nat) (ps : List MoStringPair)
    (slots slots' : List MoHashSlot)
    (h : mo_insert_all mask ps slots = some slots') : slots'.length = slots.length := by
  induction ps generalizing slots with
  | nil =>
    cases h
    rfl
  | cons p rest ih =>
    simp only [mo_insert_all] at h
    split at h
    · cases h
    · have := ih _ h
      rw [this, List.length_set]

/-- Shape of a successfully built hash table: size field, mask and slot
count all agree with the computed table size. -/
theorem mo_build_hash_table_size (ps : List MoStringPair) (t : MoHashTable)
    (hb : mo_build_hash_table ps = some t) :
    t.size = mo_next_power_of_two (4 * ps.length / 3 + 1) ∧
      t.mask = t.size - 1 ∧ t.slots.length = t.size := by
  simp only [mo_build_hash_table] at hb
  split at hb
  · cases hb
  · split at hb
    · cases hb
    · next slots hia =>
      cases hb
      refine ⟨rfl, rfl, ?_⟩
      have := mo_insert_all_length _ _ _ _ hia
      simpa using this

/-- Claim C5, amended.  For `1 ≤ num_strings ≤ 2^22` (where the C float
division truncates to the exact `⌊4n/3⌋`), a successful hash build
sizes its table to the smallest power of two at least
`⌊num_strings/0.75⌋ + 1` — not `⌈num_strings/0.75⌉` as claimed — and
the load-bound consequences survive: the size is a power of two at
least `⌈num_strings/0.75⌉`. -/
theorem C5_amended (ps : List MoStringPair) (t : MoHashTable)
    (h1 : 1 ≤ ps.length) (h2 : ps.length ≤ 2 ^ 22)
    (hb : mo_build_hash_table ps = some t) :
    t.size = mo_next_power_of_two (4 * ps.length / 3 + 1) ∧
    IsSmallestPow2Geq (4 * ps.length / 3 + 1) t.size ∧
    (4 * ps.length + 2) / 3 ≤ t.size ∧ (∃ k, t.size = 2 ^ k) := by
  obtain ⟨hsz, -, -⟩ := mo_build_hash_table_size ps t hb
  have hm1 : 1 ≤ 4 * ps.length / 3 + 1 := by omega
  have hm2 : 4 * ps.length / 3 + 1 ≤ 2 ^ 31 := by omega
  have hleast := mo_next_power_of_two_least _ hm1 hm2
  rw [hsz]
  refine ⟨rfl, hleast, ?_, hleast.1⟩
  have := hleast.2.1
  omega

/-- Witness for the amended C5 at the three-string catalog. -/
theorem C5_witness :
    ((ctxOf .hash exFile3).hashTable.getD default).size
        = mo_next_power_of_two (4 * exPairs3.length / 3 + 1) ∧
    IsSmallestPow2Geq (4 * exPairs3.length / 3 + 1)
      ((ctxOf .hash exFile3).hashTable.getD default).size ∧
    (4 * exPairs3.length + 2) / 3 ≤ ((ctxOf .hash exFile3).hashTable.getD default).size ∧
    (∃ k, ((ctxOf .hash exFile3).hashTable.getD default).size = 2 ^ k) :=
  C5_amended exPairs3 _ (by decide) (by norm_num [exPairs3]) (by decide)

/-! ## Probe arithmetic -/

theorem getD_replicate {α : Type u} (n i : Nat) (x d : α) :
    (List.replicate n x).getD i d = if i < n then x else d := by
  rw [List.getD_eq_getElem?_getD, List.getElem?_replicate]
  split <;> rfl

theorem getD_set_self {α : Type u} (l : List α) (j : Nat) (a d : α) (h : j < l.length) :
    (l.set j a).getD j d = a := by
  rw [List.getD_eq_getElem?_getD, List.getElem?_set_self h]
  rfl

theorem getD_set_ne {α : Type u} (l : List α) (i j : Nat) (a d : α) (h : j ≠ i) :
    (l.set j a).getD i d = l.getD i d := by
  rw [List.getD_eq_getElem?_getD, List.getElem?_set_ne h, ← List.getD_eq_getElem?_getD]

theorem and_mask_eq_mod (x k : Nat) : x &&& (2 ^ k - 1) = x % 2 ^ k :=
  Nat.and_pow_two_sub_one_eq_mod x k

theorem probeIdx_lt (start size d : Nat) (h : 0 < size) : probeIdx start size d < size :=
  Nat.mod_lt _ h

theorem probeIdx_zero (start size : Nat) (h : start < size) : probeIdx start size 0 = start := by
  show (start + 0) % size = start
  rw [Nat.add_zero]
  exact Nat.mod_eq_of_lt h

theorem probeIdx_succ (start size d : Nat) :
    (probeIdx start size d + 1) % size = probeIdx start size (d + 1) := by
  unfold probeIdx
  rw [Nat.mod_add_mod, Nat.add_assoc]

theorem probe_wrap_iff (start e size : Nat) (hs : start < size) (he : e ≤ size) :
    ((start + e) % size = start ↔ e = 0 ∨ e = size) := by
  constructor
  · intro h
    rcases Nat.lt_or_ge (start + e) size with hlt | hge
    · rw [Nat.mod_eq_of_lt hlt] at h
      omega
    · rw [Nat.mod_eq_sub_mod hge, Nat.mod_eq_of_lt (by omega)] at h
      omega
  · rintro (rfl | rfl)
    · simpa using Nat.mod_eq_of_lt hs
    · rw [Nat.add_mod_right]
      exact Nat.mod_eq_of_lt hs

theorem probeIdx_probeDist (a b size : Nat) (ha : a < size) (hb : b < size) :
    probeIdx a size (probeDist a b size) = b := by
  unfold probeIdx probeDist
  rcases Nat.lt_or_ge b a with hba | hab
  · rw [Nat.mod_eq_of_lt (by omega : b + size - a < size),
      show a + (b + size - a) = b + size by omega, Nat.add_mod_right]
    exact Nat.mod_eq_of_lt hb
  · rw [Nat.mod_eq_sub_mod (show b + size - a ≥ size by omega),
      Nat.mod_eq_of_lt (show b + size - a - size < size by omega),
      show a + (b + size - a - size) = b by omega]
    exact Nat.mod_eq_of_lt hb

theorem probeDist_probeIdx (start size e : Nat) (hs : start < size) (he : e < size) :
    probeDist start (probeIdx start size e) size = e := by
  unfold probeIdx probeDist
  rcases Nat.lt_or_ge (start + e) size with hlt | hge
  · rw [Nat.mod_eq_of_lt hlt, show start + e + size - start = e + size by omega,
      Nat.add_mod_right]
    exact Nat.mod_eq_of_lt he
  · rw [Nat.mod_eq_sub_mod hge,
      Nat.mod_eq_of_lt (show start + e - size < size by omega),
      show start + e - size + size - start = e by omega]
    exact Nat.mod_eq_of_lt he

theorem probeIdx_shift (start size e : Nat) :
    probeIdx ((start + 1) % size) size e = probeIdx start size (e + 1) := by
  unfold probeIdx
  rw [Nat.mod_add_mod]
  congr 1
  omega

/-! ## Insertion probing -/

/-- Characterization of a successful insertion probe: the returned slot
is the first non-occupied slot along the probe path. -/
theorem mo_insert_probe_spec (slots : List MoHashSlot) (mask k : Nat)
    (hk : slots.length = 2 ^ k) (hm : mask = 2 ^ k - 1) :
    ∀ fuel start j, start < slots.length →
      mo_insert_probe slots mask start fuel = some j →
      ∃ e, e < fuel ∧ j = probeIdx start slots.length e ∧ ¬ slotOcc slots j ∧
        ∀ e2 < e, slotOcc slots (probeIdx start slots.length e2) := by
  intro fuel
  induction fuel with
  | zero =>
    intro start j hs h
    simp [mo_insert_probe] at h
  | succ fuel ih =>
    intro start j hs h
    rw [mo_insert_probe] at h
    split at h
    · next hocc =>
      have hstep : (start + 1) &&& mask = (start + 1) % slots.length := by
        rw [hm, and_mask_eq_mod, hk]
      rw [hstep] at h
      obtain ⟨e, he, hj, hno, hall⟩ :=
        ih ((start + 1) % slots.length) j (Nat.mod_lt _ (by omega)) h
      refine ⟨e + 1, by omega, ?_, hno, ?_⟩
      · rw [hj, probeIdx_shift]
      · intro e2 he2
        cases e2 with
        | zero =>
          rw [probeIdx_zero _ _ hs]
          exact hocc
        | succ e3 =>
          rw [← probeIdx_shift]
          exact hall e3 (by omega)
    · next hno =>
      cases h
      exact ⟨0, by omega, (probeIdx_zero _ _ hs).symm, hno, by omega⟩

/-- An insertion probe with a reachable non-occupied slot succeeds. -/
theorem mo_insert_probe_success (slots : List MoHashSlot) (mask k : Nat)
    (hk : slots.length = 2 ^ k) (hm : mask = 2 ^ k - 1) :
    ∀ fuel start, start < slots.length →
      (∃ e, e < fuel ∧ ¬ slotOcc slots (probeIdx start slots.length e)) →
      ∃ j, mo_insert_probe slots mask start fuel = some j := by
  intro fuel
  induction fuel with
  | zero =>
    rintro start hs ⟨e, he, _⟩
    omega
  | succ fuel ih =>
    rintro start hs ⟨e, he, hocc⟩
    rw [mo_insert_probe]
    split
    · next hoccst =>
      have hstep : (start + 1) &&& mask = (start + 1) % slots.length := by
        rw [hm, and_mask_eq_mod, hk]
      rw [hstep]
      apply ih ((start + 1) % slots.length) (Nat.mod_lt _ (by omega))
      have he0 : e ≠ 0 := by
        intro h0
        subst h0
        rw [probeIdx_zero _ _ hs] at hocc
        exact hocc hoccst
      refine ⟨e - 1, by omega, ?_⟩
      rw [probeIdx_shift, show e - 1 + 1 = e by omega]
      exact hocc
    · exact ⟨start, rfl⟩

/-- Not all slots can be occupied while the occupied count is below the
slot count. -/
theorem exists_unocc_of_count_lt (slots : List MoHashSlot)
    (h : occCount slots < slots.length) :
    ∃ i, i < slots.length ∧ ¬ slotOcc slots i := by
  by_contra hno
  push_neg at hno
  have hall : slots.filter (fun s => s.state == .occupied) = slots := by
    rw [List.filter_eq_self]
    intro a ha
    obtain ⟨i, hi, rfl⟩ := List.mem_iff_getElem.mp ha
    have hocc := hno i hi
    unfold slotOcc at hocc
    rw [List.getD_eq_getElem _ _ hi] at hocc
    simp [hocc]
  unfold occCount at h
  rw [hall] at h
  omega

/-- Setting one slot raises the occupied count by at most one. -/
theorem occCount_set_le (slots : List MoHashSlot) (j : Nat) (x : MoHashSlot) :
    occCount (slots.set j x) ≤ occCount slots + 1 := by
  induction slots generalizing j with
  | nil => simp [occCount]
  | cons s rest ih =>
    cases j with
    | zero =>
      simp only [List.set, occCount, List.filter]
      split <;> split <;> simp_all [occCount]
      omega
    | succ j2 =>
      simp only [List.set, occCount, List.filter]
      have := ih j2
      split <;> simp_all [occCount]

/-- Nothing is occupied in a freshly `calloc`ed slot array. -/
theorem occCount_replicate_empty (n : Nat) :
    occCount (List.replicate n emptySlot) = 0 := by
  unfold occCount
  rw [List.filter_replicate]
  simp [emptySlot]

/-- `mo_insert_all` cannot fail while the table has room for every
remaining pair. -/
theorem mo_insert_all_some (k mask : Nat) (hm : mask = 2 ^ k - 1) :
    ∀ (ps : List MoStringPair) (slots : List MoHashSlot), slots.length = 2 ^ k →
      occCount slots + ps.length ≤ slots.length →
      mo_insert_all mask ps slots ≠ none := by
  intro ps
  induction ps with
  | nil =>
    intro slots _ _ h
    simp [mo_insert_all] at h
  | cons p rest ih =>
    intro slots hk hcap
    rw [mo_insert_all]
    have hpos : 0 < slots.length := by
      rw [hk]
      exact Nat.pos_pow_of_pos k (by omega)
    have hstart : mo_hash_string p.original &&& mask < slots.length := by
      rw [hm, and_mask_eq_mod, hk]
      exact Nat.mod_lt _ (by omega)
    obtain ⟨i, hi, hno⟩ := exists_unocc_of_count_lt slots (by simp at hcap; omega)
    obtain ⟨j, hj⟩ := mo_insert_probe_success slots mask k hk hm slots.length
      (mo_hash_string p.original &&& mask) hstart
      ⟨probeDist (mo_hash_string p.original &&& mask) i slots.length,
        Nat.mod_lt _ (by omega),
        by rw [probeIdx_probeDist _ _ _ hstart hi]; exact hno⟩
    rw [hj]
    apply ih
    · rw [List.length_set]
      exact hk
    · have h1 := occCount_set_le slots j
        ⟨p.original, p.translation, p.original_len, p.translation_len,
          mo_hash_string p.original, .occupied⟩
      rw [List.length_set]
      simp at hcap
      omega

/-! ## Lookup probing -/

/-- With `slots.length` fuel, the lookup probe always reaches a
decision: an `Empty` slot, a match, or the wrap back to its start. -/
theorem mo_find_hash_go_ne_none (slots : List MoHashSlot) (mask k : Nat) (str : List Byte)
    (len hash start : Nat) (hk : slots.length = 2 ^ k) (hm : mask = 2 ^ k - 1)
    (hs : start < slots.length) :
    ∀ fuel d, d < slots.length → slots.length - d ≤ fuel →
      (mo_find_hash_go slots mask str len hash start
          (probeIdx start slots.length d) fuel).1 ≠ none := by
  intro fuel
  induction fuel with
  | zero =>
    intro d hd hf
    omega
  | succ fuel ih =>
    intro d hd hf
    rw [mo_find_hash_go]
    dsimp only
    split
    · simp
    · split
      · simp
      · have hstep : (probeIdx start slots.length d + 1) &&& mask
            = probeIdx start slots.length (d + 1) := by
          rw [hm, and_mask_eq_mod, hk, probeIdx_succ]
        rw [hstep]
        split
        · simp
        · next hne =>
          have hd1 : d + 1 < slots.length := by
            rcases Nat.lt_or_ge (d + 1) slots.length with h | h
            · exact h
            · exfalso
              apply hne
              have hde : d + 1 = slots.length := by omega
              unfold probeIdx
              rw [hde, Nat.add_mod_right]
              exact Nat.mod_eq_of_lt hs
          have hr := ih (d + 1) hd1 (by omega)
          rcases hrec : mo_find_hash_go slots mask str len hash start
              (probeIdx start slots.length (d + 1)) fuel with ⟨r, c⟩
          rw [hrec] at hr
          simp only [hrec]
          simpa using hr

/-- Soundness of the lookup probe: a returned slot is occupied and
matches the query's hash, length and bytes. -/
theorem mo_find_hash_go_sound (slots : List MoHashSlot) (mask : Nat) (str : List Byte)
    (len hash start : Nat) :
    ∀ fuel idx j,
      (mo_find_hash_go slots mask str len hash start idx fuel).1 = some (some j) →
      slotOcc slots j ∧ (slots.getD j emptySlot).hash = hash ∧
        (slots.getD j emptySlot).original_len = len ∧
        (slots.getD j emptySlot).original = str := by
  intro fuel
  induction fuel with
  | zero =>
    intro idx j h
    simp [mo_find_hash_go] at h
  | succ fuel ih =>
    intro idx j h
    rw [mo_find_hash_go] at h
    dsimp only at h
    split at h
    · simp at h
    · split at h
      · next hcond =>
        simp only [Bool.and_eq_true, decide_eq_true_eq, beq_iff_eq] at hcond
        simp only [Option.some.injEq] at h
        cases h
        exact ⟨hcond.1.1.1, hcond.1.1.2, hcond.1.2, hcond.2⟩
      · split at h
        · simp at h
        · rcases hrec : mo_find_hash_go slots mask str len hash start
              ((idx + 1) &&& mask) fuel with ⟨r, c⟩
          rw [hrec] at h
          simp only at h
          apply ih ((idx + 1) &&& mask) j
          rw [hrec]
          simpa using h

/-- Completeness of the lookup probe: if the probe path from the start
position is fully occupied up to a matching slot, the probe returns a
match. -/
theorem mo_find_hash_go_complete (slots : List MoHashSlot) (mask k : Nat) (str : List Byte)
    (len hash start tgt : Nat) (hk : slots.length = 2 ^ k) (hm : mask = 2 ^ k - 1)
    (hs : start < slots.length) (htgt : tgt < slots.length)
    (hocc : slotOcc slots (probeIdx start slots.length tgt))
    (hh : (slots.getD (probeIdx start slots.length tgt) emptySlot).hash = hash)
    (hl : (slots.getD (probeIdx start slots.length tgt) emptySlot).original_len = len)
    (ho : (slots.getD (probeIdx start slots.length tgt) emptySlot).original = str)
    (hpath : ∀ e, e < tgt → slotOcc slots (probeIdx start slots.length e)) :
    ∀ fuel d, d ≤ tgt → tgt - d < fuel →
      ∃ j, (mo_find_hash_go slots mask str len hash start
        (probeIdx start slots.length d) fuel).1 = some (some j) := by
  intro fuel
  induction fuel with
  | zero =>
    intro d hd hf
    omega
  | succ fuel ih =>
    intro d hd hf
    rw [mo_find_hash_go]
    dsimp only
    by_cases hdt : d = tgt
    · subst hdt
      split
      · next hemp =>
        exfalso
        unfold slotOcc at hocc
        rw [hemp] at hocc
        cases hocc
      · split
        · exact ⟨_, rfl⟩
        · next hcond =>
          exfalso
          apply hcond
          simp only [Bool.and_eq_true, decide_eq_true_eq, beq_iff_eq]
          exact ⟨⟨⟨hocc, hh⟩, hl⟩, ho⟩
    · have hdlt : d < tgt := by omega
      have hoccd := hpath d hdlt
      split
      · next hemp =>
        exfalso
        unfold slotOcc at hoccd
        rw [hemp] at hoccd
        cases hoccd
      · split
        · exact ⟨_, rfl⟩
        · have hstep : (probeIdx start slots.length d + 1) &&& mask
              = probeIdx start slots.length (d + 1) := by
            rw [hm, and_mask_eq_mod, hk, probeIdx_succ]
          rw [hstep]
          split
          · next hwrap =>
            exfalso
            unfold probeIdx at hwrap
            rcases (probe_wrap_iff start (d + 1) slots.length hs (by omega)).mp hwrap
              with h0 | hsz
            · omega
            · omega
          · obtain ⟨j, hj⟩ := ih (d + 1) (by omega) (by omega)
            rcases hrec : mo_find_hash_go slots mask str len hash start
                (probeIdx start slots.length (d + 1)) fuel with ⟨r, c⟩
            rw [hrec] at hj
            simp only [hrec]
            exact ⟨j, by simpa using hj⟩

/-- Claim C9.  Open-addressing probing terminates: (a) a lookup probe
with `slots.length` fuel always reaches an `Empty` slot, a match, or
the wrap back to its start index, for every query against any
power-of-two table; (b) insertion probing during the build always
finds a non-occupied slot, because the table is sized strictly larger
than the number of inserted pairs — concretely, the fuelled model of
`mo_build_hash_table` never fails for any non-empty pair array of at
most `2^22` pairs. -/
theorem C9_probe_termination :
    (∀ (t : MoHashTable) (k : Nat) (str : List Byte) (len hash : Nat),
        t.slots.length = 2 ^ k → t.mask = 2 ^ k - 1 →
        (mo_find_string_hash t str len hash).1 ≠ none) ∧
    (∀ ps : List MoStringPair, 1 ≤ ps.length → ps.length ≤ 2 ^ 22 →
        mo_build_hash_table ps ≠ none) := by
  constructor
  · intro t k str len hash hk hm
    unfold mo_find_string_hash
    split
    · simp
    · next hne =>
      have hpos : 0 < t.slots.length := by omega
      have hstart : hash &&& t.mask < t.slots.length := by
        rw [hm, and_mask_eq_mod, hk]
        exact Nat.mod_lt _ (by omega)
      have := mo_find_hash_go_ne_none t.slots t.mask k str len hash
        (hash &&& t.mask) hk hm hstart t.slots.length 0 (by omega) (by omega)
      rwa [probeIdx_zero _ _ hstart] at this
  · intro ps h1 h2
    unfold mo_build_hash_table
    split
    · omega
    · have hm1 : 1 ≤ 4 * ps.length / 3 + 1 := by omega
      have hm2 : 4 * ps.length / 3 + 1 ≤ 2 ^ 31 := by omega
      have hsz := mo_next_power_of_two_eq _ hm1 hm2
      have hge : 4 * ps.length / 3 + 1 ≤ mo_next_power_of_two (4 * ps.length / 3 + 1) := by
        rw [hsz]
        have := Nat.lt_size_self (4 * ps.length / 3 + 1 - 1)
        omega
      intro hcontra
      have hia : mo_insert_all (mo_next_power_of_two (4 * ps.length / 3 + 1) - 1) ps
          (List.replicate (mo_next_power_of_two (4 * ps.length / 3 + 1)) emptySlot) ≠ none := by
        apply mo_insert_all_some (4 * ps.length / 3 + 1 - 1).size
          (mo_next_power_of_two (4 * ps.length / 3 + 1) - 1) (by rw [hsz]) ps
          (List.replicate (mo_next_power_of_two (4 * ps.length / 3 + 1)) emptySlot)
          (by rw [List.length_replicate, hsz])
        rw [occCount_replicate_empty, List.length_replicate]
        omega
      rcases hia2 : mo_insert_all (mo_next_power_of_two (4 * ps.length / 3 + 1) - 1) ps
          (List.replicate (mo_next_power_of_two (4 * ps.length / 3 + 1)) emptySlot)
        with _ | slots
      · exact hia hia2
      · simp [hia2] at hcontra

/-- Witness for C9: a concrete probe against the built 4-slot table of
`exFileGood` and the concrete build of the three-pair catalog. -/
theorem C9_witness :
    (mo_find_string_hash ((ctxOf .hash exFileGood).hashTable.getD default)
        [97] 1 5381).1 ≠ none ∧
    mo_build_hash_table exPairs3 ≠ none :=
  ⟨C9_probe_termination.1 ((ctxOf .hash exFileGood).hashTable.getD default) 2 [97] 1 5381
      (by decide) (by decide),
   C9_probe_termination.2 exPairs3 (by decide) (by norm_num [exPairs3])⟩

/-! ## Byte and pair comparison -/

theorem bytesCmp_eq_iff (a b : List Byte) : bytesCmp a b = .eq ↔ a = b := by
  induction a generalizing b with
  | nil =>
    cases b <;> simp [bytesCmp]
  | cons x xs ih =>
    cases b with
    | nil => simp [bytesCmp]
    | cons y ys =>
      unfold bytesCmp
      split
      · next h =>
        constructor
        · intro hc
          cases hc
        · intro hc
          cases hc
          omega
      · split
        · next h =>
          constructor
          · intro hc
            cases hc
          · intro hc
            cases hc
            omega
        · next h1 h2 =>
          have hxy : x = y := by
            apply Fin.ext
            omega
          subst hxy
          rw [ih]
          constructor
          · intro hc
            rw [hc]
          · intro hc
            cases hc
            rfl

theorem bytesCmp_lt_gt (a b : List Byte) : bytesCmp a b = .lt ↔ bytesCmp b a = .gt := by
  induction a generalizing b with
  | nil => cases b <;> simp [bytesCmp]
  | cons x xs ih =>
    cases b with
    | nil => simp [bytesCmp]
    | cons y ys =>
      unfold bytesCmp
      rcases Nat.lt_trichotomy x.val y.val with h | h | h
      · simp [h, Nat.lt_asymm h]
      · simp [h, Nat.lt_irrefl]
        exact ih ys
      · simp [h, Nat.lt_asymm h]

theorem bytesCmp_lt_trans (a b c : List Byte) (h1 : bytesCmp a b = .lt)
    (h2 : bytesCmp b c = .lt) : bytesCmp a c = .lt := by
  induction a generalizing b c with
  | nil =>
    cases b with
    | nil => cases h1
    | cons y ys =>
      cases c with
      | nil => cases h2
      | cons z zs => simp [bytesCmp]
  | cons x xs ih =>
    cases b with
    | nil => cases h1
    | cons y ys =>
      cases c with
      | nil => cases h2
      | cons z zs =>
        by_cases hxy : x.val < y.val
        · by_cases hyz : y.val < z.val
          · simp [bytesCmp, show x.val < z.val by omega]
          · by_cases hzy : z.val < y.val
            · simp [bytesCmp, hyz, hzy] at h2
            · simp [bytesCmp, show x.val < z.val by omega]
        · by_cases hyx : y.val < x.val
          · simp [bytesCmp, hxy, hyx] at h1
          · simp only [bytesCmp, if_neg hxy, if_neg hyx] at h1
            by_cases hyz : y.val < z.val
            · simp [bytesCmp, show x.val < z.val by omega]
            · by_cases hzy : z.val < y.val
              · simp [bytesCmp, hyz, hzy] at h2
              · simp only [bytesCmp, if_neg hyz, if_neg hzy] at h2
                simp only [bytesCmp, if_neg (show ¬ x.val < z.val by omega),
                  if_neg (show ¬ z.val < x.val by omega)]
                exact ih ys zs h1 h2

theorem pairCmp_eq_iff (p q : MoStringPair) :
    pairCmp p q = .eq ↔ p.original_len = q.original_len ∧ p.original = q.original := by
  unfold pairCmp
  split
  · next h =>
    constructor
    · intro hc
      cases hc
    · intro hc
      omega
  · split
    · next h =>
      constructor
      · intro hc
        cases hc
      · intro hc
        omega
    · next h1 h2 =>
      rw [bytesCmp_eq_iff]
      constructor
      · intro hc
        exact ⟨by omega, hc⟩
      · intro hc
        exact hc.2

theorem pairCmp_lt_gt (p q : MoStringPair) : pairCmp p q = .lt ↔ pairCmp q p = .gt := by
  unfold pairCmp
  by_cases h1 : p.original_len < q.original_len
  · simp [h1, show ¬ q.original_len < p.original_len by omega]
  · by_cases h2 : q.original_len < p.original_len
    · simp [h1, h2]
    · simp only [if_neg h1, if_neg h2]
      exact bytesCmp_lt_gt _ _

theorem pairCmp_lt_trans (p q r : MoStringPair) (h1 : pairCmp p q = .lt)
    (h2 : pairCmp q r = .lt) : pairCmp p r = .lt := by
  unfold pairCmp at h1 h2 ⊢
  by_cases hpq : p.original_len < q.original_len
  · by_cases hqr : q.original_len < r.original_len
    · simp [show p.original_len < r.original_len by omega]
    · by_cases hrq : r.original_len < q.original_len
      · simp [hqr, hrq] at h2
      · simp [show p.original_len < r.original_len by omega]
  · by_cases hqp : q.original_len < p.original_len
    · simp [hpq, hqp] at h1
    · simp only [if_neg hpq, if_neg hqp] at h1
      by_cases hqr : q.original_len < r.original_len
      · simp [show p.original_len < r.original_len by omega]
      · by_cases hrq : r.original_len < q.original_len
        · simp [hqr, hrq] at h2
        · simp only [if_neg hqr, if_neg hrq] at h2
          simp only [if_neg (show ¬ p.original_len < r.original_len by omega),
            if_neg (show ¬ r.original_len < p.original_len by omega)]
          exact bytesCmp_lt_trans _ _ _ h1 h2

theorem pairCmp_trichotomy (p q : MoStringPair) :
    pairCmp p q = .lt ∨ pairCmp p q = .eq ∨ pairCmp p q = .gt := by
  rcases h : pairCmp p q with _ | _ | _
  · exact .inl rfl
  · exact .inr (.inl rfl)
  · exact .inr (.inr rfl)

instance : IsTotal MoStringPair pairLe := by
  constructor
  intro p q
  unfold pairLe
  rcases pairCmp_trichotomy p q with h | h | h
  · left
    simp [h]
  · left
    simp [h]
  · right
    rw [← pairCmp_lt_gt] at h
    simp [h]

instance : IsTrans MoStringPair pairLe := by
  constructor
  intro p q r hpq hqr
  unfold pairLe at *
  rcases pairCmp_trichotomy p q with h1 | h1 | h1
  · rcases pairCmp_trichotomy q r with h2 | h2 | h2
    · simp [pairCmp_lt_trans p q r h1 h2]
    · obtain ⟨hl, ho⟩ := (pairCmp_eq_iff q r).mp h2
      have hcongr : pairCmp p r = pairCmp p q := by
        unfold pairCmp
        rw [← hl, ← ho]
      rw [hcongr, h1]
      simp
    · exact absurd h2 hqr
  · obtain ⟨hl, ho⟩ := (pairCmp_eq_iff p q).mp h1
    have hcongr : pairCmp p r = pairCmp q r := by
      unfold pairCmp
      rw [hl, ho]
    rw [hcongr]
    exact hqr
  · exact absurd h1 hpq

/-! ## Pure lookup -/

theorem pairMatches_iff (p : MoStringPair) (b : List Byte) (len : Nat) :
    pairMatches p b len = true ↔ p.original_len = len ∧ p.original = b := by
  unfold pairMatches
  simp [Bool.and_eq_true]

theorem orig_eq_of_mem (ps : List MoStringPair) (hdist : distinctOriginals ps)
    {p q : MoStringPair} (hp : p ∈ ps) (hq : q ∈ ps) (h : p.original = q.original) :
    p = q := by
  unfold distinctOriginals at hdist
  exact List.inj_on_of_nodup_map hdist hp hq h

theorem pureLookup_some_iff (ps : List MoStringPair) (b : List Byte)
    (hdist : distinctOriginals ps) (t : List Byte) :
    pureLookup ps b = some t ↔
      ∃ p ∈ ps, pairMatches p b b.length = true ∧ p.translation = t := by
  unfold pureLookup
  constructor
  · intro h
    rcases hf : ps.find? (fun p => pairMatches p b b.length) with _ | p0
    · rw [hf] at h
      cases h
    · rw [hf] at h
      simp only [Option.map_some', Option.some.injEq] at h
      have h0 := List.find?_some hf
      exact ⟨p0, List.mem_of_find?_eq_some hf, h0, h⟩
  · rintro ⟨p, hmem, hmatch, ht⟩
    rcases hf : ps.find? (fun p => pairMatches p b b.length) with _ | p0
    · rw [List.find?_eq_none] at hf
      exact absurd hmatch (by simpa using hf p hmem)
    · have h0 := List.find?_some hf
      have hm0 := List.mem_of_find?_eq_some hf
      have hob : p0.original = p.original := by
        have h1 := (pairMatches_iff _ _ _).mp h0
        have h2 := (pairMatches_iff _ _ _).mp hmatch
        rw [h1.2, h2.2]
      have hpe : p0 = p := orig_eq_of_mem ps hdist hm0 hmem hob
      simp [Option.map_some', hpe, ht]

theorem pureLookup_none_iff (ps : List MoStringPair) (b : List Byte) :
    pureLookup ps b = none ↔ ∀ p ∈ ps, pairMatches p b b.length = false := by
  unfold pureLookup
  simp [List.find?_eq_none]

theorem pureLookup_perm (ps1 ps2 : List MoStringPair) (hperm : ps1.Perm ps2)
    (hdist : distinctOriginals ps1) (b : List Byte) :
    pureLookup ps1 b = pureLookup ps2 b := by
  have hdist2 : distinctOriginals ps2 := by
    unfold distinctOriginals at *
    exact (List.Perm.nodup_iff (List.Perm.map _ hperm)).mp hdist
  rcases h1 : pureLookup ps1 b with _ | t
  · symm
    rw [pureLookup_none_iff] at h1 ⊢
    intro p hp
    exact h1 p (hperm.mem_iff.mpr hp)
  · symm
    rw [pureLookup_some_iff ps2 b hdist2]
    obtain ⟨p, hm, hma, ht⟩ := (pureLookup_some_iff ps1 b hdist t).mp h1
    exact ⟨p, hperm.mem_iff.mp hm, hma, ht⟩

/-! ## Linear search -/

theorem find_linear_go_spec (str : List Byte) (len : Nat) :
    ∀ (ps : List MoStringPair) (k : Nat),
      ((mo_find_string_linear.go str len ps k).1 = none ∧
        ∀ p ∈ ps, pairMatches p str len = false) ∨
      (∃ i, (mo_find_string_linear.go str len ps k).1 = some (k + i) ∧ i < ps.length ∧
        ps.find? (fun p => pairMatches p str len) = some (ps.getD i default)) := by
  intro ps
  induction ps with
  | nil =>
    intro k
    exact .inl ⟨rfl, by simp⟩
  | cons p rest ih =>
    intro k
    by_cases hm : pairMatches p str len
    · right
      refine ⟨0, ?_, by simp, ?_⟩
      · simp [mo_find_string_linear.go, hm]
      · simp [List.find?_cons, hm]
    · rcases ih (k + 1) with ⟨hnone, hall⟩ | ⟨i, hsome, hlt, hfind⟩
      · left
        constructor
        · simp only [mo_find_string_linear.go, if_neg hm]
          rcases hg : mo_find_string_linear.go str len rest (k + 1) with ⟨r, c⟩
          rw [hg] at hnone
          simpa using hnone
        · intro p2 hp2
          rcases List.mem_cons.mp hp2 with rfl | hmem
          · simpa using hm
          · exact hall p2 hmem
      · right
        refine ⟨i + 1, ?_, by simpa using Nat.succ_lt_succ hlt, ?_⟩
        · simp only [mo_find_string_linear.go, if_neg hm]
          rcases hg : mo_find_string_linear.go str len rest (k + 1) with ⟨r, c⟩
          rw [hg] at hsome
          simp only at hsome ⊢
          rw [hsome]
          congr 1
          omega
        · rw [List.find?_cons]
          have hmb : pairMatches p str len = false := by simpa using hm
          rw [hmb]
          simpa using hfind

theorem mo_find_string_linear_spec (ps : List MoStringPair) (str : List Byte) (len : Nat) :
    ((mo_find_string_linear ps str len).1 = none ∧
      ∀ p ∈ ps, pairMatches p str len = false) ∨
    (∃ i, (mo_find_string_linear ps str len).1 = some i ∧ i < ps.length ∧
      ps.find? (fun p => pairMatches p str len) = some (ps.getD i default)) := by
  have h := find_linear_go_spec str len ps 0
  rcases h with ⟨hn, hall⟩ | ⟨i, hs, hlt, hf⟩
  · exact .inl ⟨hn, hall⟩
  · right
    refine ⟨i, ?_, hlt, hf⟩
    simpa using hs

/-- The linear strategy's miss-path result is the strategy-free lookup. -/
theorem searchResult_linear (ctx : MoContext) (psA : List MoStringPair) (b : List Byte) :
    searchResult .linear ctx psA b = pureLookup psA b := by
  unfold searchResult pureLookup
  dsimp only
  rcases mo_find_string_linear_spec psA b b.length with ⟨hn, hall⟩ | ⟨i, hs, hlt, hf⟩
  · rw [hn, List.find?_eq_none.mpr (by intro x hx; simp [hall x hx])]
    rfl
  · rw [hs, hf]
    rfl

/-! ## Binary search -/

theorem pairQueryCmp_eq_iff (p : MoStringPair) (str : List Byte) (len : Nat) :
    pairQueryCmp p str len = .eq ↔ pairMatches p str len = true := by
  unfold pairQueryCmp
  rw [pairMatches_iff]
  by_cases h1 : p.original_len < len
  · rw [if_pos h1]
    constructor
    · intro hc
      cases hc
    · rintro ⟨hl, -⟩
      omega
  · rw [if_neg h1]
    by_cases h2 : len < p.original_len
    · rw [if_pos h2]
      constructor
      · intro hc
        cases hc
      · rintro ⟨hl, -⟩
        omega
    · rw [if_neg h2, bytesCmp_eq_iff]
      constructor
      · intro hc
        exact ⟨by omega, hc⟩
      · rintro ⟨-, ho⟩
        exact ho

theorem pairQueryCmp_congr (p q : MoStringPair) (str : List Byte) (len : Nat)
    (h : pairQueryCmp q str len = .eq) : pairQueryCmp p str len = pairCmp p q := by
  unfold pairQueryCmp at h ⊢
  unfold pairCmp
  by_cases h1 : q.original_len < len
  · rw [if_pos h1] at h
    cases h
  · rw [if_neg h1] at h
    by_cases h2 : len < q.original_len
    · rw [if_pos h2] at h
      cases h
    · rw [if_neg h2] at h
      have hlen : q.original_len = len := by omega
      have horig : q.original = str := (bytesCmp_eq_iff _ _).mp h
      rw [hlen, horig]

/-- Soundness of the binary-search loop: any returned index holds a
pair that compares equal to the query. -/
theorem binGo_sound (ps : List MoStringPair) (str : List Byte) (len : Nat) :
    ∀ n left right i, right + 1 - left ≤ n → right < ps.length →
      (mo_find_binary_go ps str len left right).1 = some i →
      i < ps.length ∧ pairQueryCmp (ps.getD i default) str len = .eq := by
  intro n
  induction n with
  | zero =>
    intro left right i hn hr h
    rw [mo_find_binary_go, dif_pos (by omega : right < left)] at h
    cases h
  | succ n ih =>
    intro left right i hn hr h
    rw [mo_find_binary_go] at h
    by_cases hrl : right < left
    · rw [dif_pos hrl] at h
      cases h
    · rw [dif_neg hrl] at h
      rcases hq : pairQueryCmp (ps.getD (left + (right - left) / 2) default) str len
        with _ | _ | _
      · simp only [hq] at h
        rcases hrec : mo_find_binary_go ps str len (left + (right - left) / 2 + 1) right
          with ⟨r, c⟩
        rw [hrec] at h
        simp only at h
        exact ih (left + (right - left) / 2 + 1) right i (by omega) hr (by rw [hrec]; exact h)
      · simp only [hq] at h
        simp only [Option.some.injEq] at h
        subst h
        exact ⟨by omega, hq⟩
      · simp only [hq] at h
        split at h
        · cases h
        · rcases hrec : mo_find_binary_go ps str len left (left + (right - left) / 2 - 1)
            with ⟨r, c⟩
          rw [hrec] at h
          simp only at h
          exact ih left (left + (right - left) / 2 - 1) i (by omega) (by omega)
            (by rw [hrec]; exact h)

/-- Completeness of the binary-search loop over a strictly sorted pair
array: a window containing an index whose pair compares equal to the
query always produces a result. -/
theorem binGo_complete (ps : List MoStringPair) (str : List Byte) (len : Nat)
    (H : ∀ i j, i < j → j < ps.length →
      pairCmp (ps.getD i default) (ps.getD j default) = .lt)
    (j : Nat) (hj : j < ps.length)
    (hjeq : pairQueryCmp (ps.getD j default) str len = .eq) :
    ∀ n left right, right + 1 - left ≤ n → right < ps.length → left ≤ j → j ≤ right →
      ∃ i, (mo_find_binary_go ps str len left right).1 = some i := by
  intro n
  induction n with
  | zero =>
    intro left right h1 _ h3 h4
    omega
  | succ n ih =>
    intro left right hn hr hlj hjr
    rw [mo_find_binary_go, dif_neg (by omega : ¬ right < left)]
    rcases hq : pairQueryCmp (ps.getD (left + (right - left) / 2) default) str len
      with _ | _ | _
    · have hc : pairCmp (ps.getD (left + (right - left) / 2) default)
          (ps.getD j default) = .lt := by
        rw [← pairQueryCmp_congr _ _ _ _ hjeq]
        exact hq
      have hmlt : left + (right - left) / 2 < j := by
        by_contra hge
        push_neg at hge
        rcases Nat.lt_or_ge j (left + (right - left) / 2) with hlt2 | hge2
        · have hlt3 := H j _ hlt2 (by omega)
          rw [pairCmp_lt_gt] at hlt3
          rw [hc] at hlt3
          cases hlt3
        · have hje : j = left + (right - left) / 2 := by omega
          rw [← hje] at hc
          have hself : pairCmp (ps.getD j default) (ps.getD j default) = .eq :=
            (pairCmp_eq_iff _ _).mpr ⟨rfl, rfl⟩
          rw [hself] at hc
          cases hc
      obtain ⟨i, hi⟩ := ih (left + (right - left) / 2 + 1) right (by omega) hr
        (by omega) hjr
      simp only [hq]
      rcases hrec : mo_find_binary_go ps str len (left + (right - left) / 2 + 1) right
        with ⟨r, c⟩
      rw [hrec] at hi
      exact ⟨i, by simp only [hrec]; simpa using hi⟩
    · exact ⟨left + (right - left) / 2, by simp only [hq]⟩
    · have hc : pairCmp (ps.getD (left + (right - left) / 2) default)
          (ps.getD j default) = .gt := by
        rw [← pairQueryCmp_congr _ _ _ _ hjeq]
        exact hq
      have hmgt : j < left + (right - left) / 2 := by
        by_contra hge
        push_neg at hge
        rcases Nat.lt_or_ge (left + (right - left) / 2) j with hlt2 | hge2
        · have hlt3 := H _ j hlt2 hj
          rw [hlt3] at hc
          cases hc
        · have hje : left + (right - left) / 2 = j := by omega
          rw [hje] at hc
          have hself : pairCmp (ps.getD j default) (ps.getD j default) = .eq :=
            (pairCmp_eq_iff _ _).mpr ⟨rfl, rfl⟩
          rw [hself] at hc
          cases hc
      simp only [hq]
      rw [if_neg (by omega : ¬ left + (right - left) / 2 = 0)]
      obtain ⟨i, hi⟩ := ih left (left + (right - left) / 2 - 1) (by omega) (by omega)
        hlj (by omega)
      rcases hrec : mo_find_binary_go ps str len left (left + (right - left) / 2 - 1)
        with ⟨r, c⟩
      rw [hrec] at hi
      exact ⟨i, by simp only [hrec]; simpa using hi⟩

/-- A sorted pair array with pairwise-distinct originals is strictly
sorted under the comparator. -/
theorem sorted_strict (ps : List MoStringPair) (hs : List.Sorted pairLe ps)
    (hdist : distinctOriginals ps) :
    ∀ i j, i < j → j < ps.length →
      pairCmp (ps.getD i default) (ps.getD j default) = .lt := by
  intro i j hij hj
  have hi : i < ps.length := by omega
  rw [List.getD_eq_getElem _ _ hi, List.getD_eq_getElem _ _ hj]
  have hle : pairLe ps[i] ps[j] := by
    have := hs.rel_get_of_lt (a := ⟨i, hi⟩) (b := ⟨j, hj⟩) (Fin.mk_lt_mk.mpr hij)
    simpa [List.get_eq_getElem] using this
  have hne : ps[i].original ≠ ps[j].original := by
    unfold distinctOriginals at hdist
    have hmap := List.pairwise_iff_getElem.mp hdist i j
      (by simpa using hi) (by simpa using hj) hij
    simpa [List.getElem_map] using hmap
  rcases pairCmp_trichotomy ps[i] ps[j] with h | h | h
  · exact h
  · exfalso
    exact hne ((pairCmp_eq_iff _ _).mp h).2
  · exfalso
    unfold pairLe at hle
    exact hle h

/-- The binary strategy's miss-path result over the sorted pair array
is the strategy-free lookup over the file-order array. -/
theorem searchResult_binary (ctx : MoContext) (ps0 : List MoStringPair)
    (hdist : distinctOriginals ps0) (b : List Byte) :
    searchResult .binary ctx (List.insertionSort pairLe ps0) b = pureLookup ps0 b := by
  have hperm : (List.insertionSort pairLe ps0).Perm ps0 := List.perm_insertionSort pairLe ps0
  have hdistA : distinctOriginals (List.insertionSort pairLe ps0) := by
    unfold distinctOriginals at *
    exact (List.Perm.nodup_iff (List.Perm.map _ hperm)).mpr hdist
  have H := sorted_strict (List.insertionSort pairLe ps0)
    (List.sorted_insertionSort pairLe ps0) hdistA
  rw [← pureLookup_perm (List.insertionSort pairLe ps0) ps0 hperm hdistA b]
  unfold searchResult
  dsimp only
  unfold mo_find_string_binary
  by_cases hlen : (List.insertionSort pairLe ps0).length = 0
  · rw [if_pos hlen]
    have hnil : List.insertionSort pairLe ps0 = [] := List.length_eq_zero.mp hlen
    rw [hnil]
    simp [pureLookup]
  · rw [if_neg hlen]
    rcases hres : (mo_find_binary_go (List.insertionSort pairLe ps0) b b.length 0
        ((List.insertionSort pairLe ps0).length - 1)).1 with _ | i
    · simp only [Option.map_none']
      symm
      rw [pureLookup_none_iff]
      intro p hp
      by_contra hmatch
      have hmatch2 : pairMatches p b b.length = true := by
        cases hmb : pairMatches p b b.length
        · exact absurd hmb hmatch
        · rfl
      obtain ⟨j, hj, hpj⟩ := List.mem_iff_getElem.mp hp
      have hjq : pairQueryCmp ((List.insertionSort pairLe ps0).getD j default)
          b b.length = .eq := by
        rw [List.getD_eq_getElem _ _ hj, hpj, pairQueryCmp_eq_iff]
        exact hmatch2
      obtain ⟨i, hi⟩ := binGo_complete (List.insertionSort pairLe ps0) b b.length H j hj
        hjq (List.insertionSort pairLe ps0).length 0
        ((List.insertionSort pairLe ps0).length - 1) (by omega) (by omega) (by omega)
        (by omega)
      rw [hres] at hi
      cases hi
    · obtain ⟨hilt, hieq⟩ := binGo_sound (List.insertionSort pairLe ps0) b b.length
        (List.insertionSort pairLe ps0).length 0
        ((List.insertionSort pairLe ps0).length - 1) i (by omega) (by omega) hres
      have hmatch : pairMatches ((List.insertionSort pairLe ps0).getD i default)
          b b.length = true := (pairQueryCmp_eq_iff _ _ _).mp hieq
      simp only [Option.map_some']
      symm
      rw [pureLookup_some_iff _ b hdistA]
      refine ⟨(List.insertionSort pairLe ps0).getD i default, ?_, hmatch, rfl⟩
      rw [List.getD_eq_getElem _ _ hilt]
      exact List.getElem_mem _

/-! ## Hash table invariant -/

theorem slotOcc_lt (slots : List MoHashSlot) (i : Nat) (h : slotOcc slots i) :
    i < slots.length := by
  by_contra hge
  push_neg at hge
  unfold slotOcc at h
  rw [List.getD_eq_getElem?_getD, List.getElem?_eq_none (by omega)] at h
  simp [emptySlot] at h

theorem slotOcc_set (slots : List MoHashSlot) (j : Nat) (x : MoHashSlot)
    (hx : x.state = .occupied) (i : Nat) (h : slotOcc slots i) :
    slotOcc (slots.set j x) i := by
  by_cases hij : j = i
  · subst hij
    unfold slotOcc
    rw [getD_set_self _ _ _ _ (slotOcc_lt _ _ h)]
    exact hx
  · unfold slotOcc at h ⊢
    rw [getD_set_ne _ _ _ _ _ hij]
    exact h

theorem tableWF_replicate (n : Nat) : tableWF [] (List.replicate n emptySlot) := by
  refine ⟨?_, ?_, ?_, ?_⟩
  · intro i hi hocc
    exfalso
    unfold slotOcc at hocc
    rw [getD_replicate] at hocc
    split at hocc <;> simp [emptySlot] at hocc
  · intro i hi
    rw [getD_replicate]
    split <;> simp [emptySlot]
  · intro i hi hocc
    exfalso
    unfold slotOcc at hocc
    rw [getD_replicate] at hocc
    split at hocc <;> simp [emptySlot] at hocc
  · intro p hp
    simp at hp

/-- Inserting one pair at the slot its probe found preserves the build
invariant, extending the stored-pair set by that pair. -/
theorem tableWF_insert (done : List MoStringPair) (p : MoStringPair)
    (slots : List MoHashSlot) (j e : Nat)
    (hwf : tableWF done slots)
    (hj : j = probeIdx (mo_hash_string p.original % slots.length) slots.length e)
    (he : e < slots.length)
    (hpos : 0 < slots.length)
    (hno : ¬ slotOcc slots j)
    (hpath : ∀ e2, e2 < e → slotOcc slots
      (probeIdx (mo_hash_string p.original % slots.length) slots.length e2)) :
    tableWF (done ++ [p])
      (slots.set j ⟨p.original, p.translation, p.original_len, p.translation_len,
        mo_hash_string p.original, .occupied⟩) := by
  obtain ⟨hwf1, hwf2, hwf3, hwf4⟩ := hwf
  have hjlt : j < slots.length := by
    rw [hj]
    exact probeIdx_lt _ _ _ hpos
  have hlen2 : (slots.set j ⟨p.original, p.translation, p.original_len, p.translation_len,
      mo_hash_string p.original, .occupied⟩).length = slots.length := List.length_set ..
  have hmono : ∀ i, slotOcc slots i → slotOcc (slots.set j ⟨p.original, p.translation,
      p.original_len, p.translation_len, mo_hash_string p.original, .occupied⟩) i :=
    fun i h => slotOcc_set slots j _ rfl i h
  have hget_j : (slots.set j ⟨p.original, p.translation, p.original_len, p.translation_len,
      mo_hash_string p.original, .occupied⟩).getD j emptySlot
      = ⟨p.original, p.translation, p.original_len, p.translation_len,
        mo_hash_string p.original, .occupied⟩ := getD_set_self _ _ _ _ hjlt
  have hget_ne : ∀ i, i ≠ j → (slots.set j ⟨p.original, p.translation, p.original_len,
      p.translation_len, mo_hash_string p.original, .occupied⟩).getD i emptySlot
      = slots.getD i emptySlot :=
    fun i hij => getD_set_ne _ _ _ _ _ (Ne.symm hij)
  refine ⟨?_, ?_, ?_, ?_⟩
  · intro i hi hocc
    rw [hlen2] at hi
    by_cases hij : i = j
    · subst hij
      refine ⟨p, by simp, ?_⟩
      rw [hget_j]
      exact ⟨rfl, rfl, rfl, rfl⟩
    · unfold slotOcc at hocc
      rw [hget_ne i hij] at hocc
      obtain ⟨pr, hpr, hf⟩ := hwf1 i hi hocc
      refine ⟨pr, List.mem_append_left _ hpr, ?_⟩
      rw [hget_ne i hij]
      exact hf
  · intro i hi
    rw [hlen2] at hi
    by_cases hij : i = j
    · subst hij
      rw [hget_j]
      intro hc
      cases hc
    · rw [hget_ne i hij]
      exact hwf2 i hi
  · intro i hi hocc
    rw [hlen2] at hi
    rw [hlen2]
    by_cases hij : i = j
    · subst hij
      rw [hget_j]
      intro kk hkk
      have hdd : probeDist (mo_hash_string p.original % slots.length) i slots.length
          = e := by
        rw [hj]
        exact probeDist_probeIdx _ _ _ (Nat.mod_lt _ hpos) he
      rw [hdd] at hkk
      exact hmono _ (hpath kk hkk)
    · rw [hget_ne i hij]
      intro kk hkk
      refine hmono _ (hwf3 i hi ?_ kk hkk)
      unfold slotOcc at hocc ⊢
      rw [hget_ne i hij] at hocc
      exact hocc
  · intro pr hpr
    rcases List.mem_append.mp hpr with hin | hin
    · obtain ⟨i, hi, hocc, ho, ht⟩ := hwf4 pr hin
      have hij : i ≠ j := by
        intro hij
        subst hij
        exact hno hocc
      refine ⟨i, by rw [hlen2]; exact hi, hmono i hocc, ?_, ?_⟩
      · rw [hget_ne i hij]
        exact ho
      · rw [hget_ne i hij]
        exact ht
    · have hp : pr = p := by simpa using hin
      subst hp
      refine ⟨j, by rw [hlen2]; exact hjlt, ?_, ?_, ?_⟩
      · unfold slotOcc
        rw [hget_j]
      · rw [hget_j]
      · rw [hget_j]

/-- The build loop establishes the invariant over all inserted pairs. -/
theorem mo_insert_all_wf (k mask : Nat) (hm : mask = 2 ^ k - 1) :
    ∀ (ps done : List MoStringPair) (slots slots' : List MoHashSlot),
      slots.length = 2 ^ k → tableWF done slots →
      mo_insert_all mask ps slots = some slots' →
      slots'.length = slots.length ∧ tableWF (done ++ ps) slots' := by
  intro ps
  induction ps with
  | nil =>
    intro done slots slots' hk hwf h
    cases h
    exact ⟨rfl, by simpa using hwf⟩
  | cons p rest ih =>
    intro done slots slots' hk hwf h
    rw [mo_insert_all] at h
    split at h
    · cases h
    · next j hpr =>
      have hpos : 0 < slots.length := by
        rw [hk]
        exact Nat.pos_pow_of_pos k (by omega)
      have hstart : mo_hash_string p.original &&& mask
          = mo_hash_string p.original % slots.length := by
        rw [hm, and_mask_eq_mod, hk]
      rw [hstart] at hpr
      obtain ⟨e, he, hj, hno, hall⟩ := mo_insert_probe_spec slots mask k hk hm slots.length
        (mo_hash_string p.original % slots.length) j (Nat.mod_lt _ hpos) hpr
      have hwfnext := tableWF_insert done p slots j e ⟨hwf.1, hwf.2.1, hwf.2.2.1, hwf.2.2.2⟩
        hj (by omega) hpos hno hall
      obtain ⟨hlen, htw⟩ := ih (done ++ [p]) _ slots'
        (by rw [List.length_set]; exact hk) hwfnext h
      refine ⟨by rw [hlen, List.length_set], ?_⟩
      rw [show done ++ p :: rest = (done ++ [p]) ++ rest by simp]
      exact htw

/-- Shape and invariant of every successfully built hash table. -/
theorem mo_build_hash_table_wf (ps : List MoStringPair) (t : MoHashTable)
    (hb : mo_build_hash_table ps = some t) :
    ∃ k, t.slots.length = 2 ^ k ∧ t.mask = 2 ^ k - 1 ∧ t.size = 2 ^ k ∧
      tableWF ps t.slots := by
  obtain ⟨hsz, hmask, hslen⟩ := mo_build_hash_table_size ps t hb
  rcases mo_next_power_of_two_pow2 (4 * ps.length / 3 + 1) with h0 | ⟨k, hk31, hk⟩
  · exfalso
    simp only [mo_build_hash_table] at hb
    split at hb
    · cases hb
    · next hne =>
      rw [h0] at hb
      cases ps with
      | nil => exact hne rfl
      | cons p rest => simp [mo_insert_all, mo_insert_probe] at hb
  · refine ⟨k, by rw [hslen, hsz, hk], by rw [hmask, hsz, hk], by rw [hsz, hk], ?_⟩
    simp only [mo_build_hash_table] at hb
    split at hb
    · cases hb
    · split at hb
      · cases hb
      · next slots hia =>
        cases hb
        have hres := mo_insert_all_wf k _ (by rw [hk]) ps [] _ slots
          (by rw [List.length_replicate, hk]) (tableWF_replicate _) hia
        simpa using hres.2

/-- The hash strategy's miss-path result over a well-formed built table
is the strategy-free lookup over the source pair array. -/
theorem searchResult_hash (ctx : MoContext) (psA ps0 : List MoStringPair) (t : MoHashTable)
    (hht : ctx.hashTable = some t) (k : Nat)
    (hlen : t.slots.length = 2 ^ k) (hmask : t.mask = 2 ^ k - 1)
    (hwf : tableWF ps0 t.slots) (hdist : distinctOriginals ps0) (b : List Byte) :
    searchResult .hash ctx psA b = pureLookup ps0 b := by
  unfold searchResult
  dsimp only
  rw [hht]
  have hpos : 0 < t.slots.length := by
    rw [hlen]
    exact Nat.pos_pow_of_pos _ (by omega)
  rcases hpure : pureLookup ps0 b with _ | tr
  · rcases hfind : (mo_find_string_hash t b b.length (mo_hash_string b)).1 with _ | oi
    · rfl
    · rcases oi with _ | i
      · rfl
      · exfalso
        have hfind2 := hfind
        unfold mo_find_string_hash at hfind2
        rw [if_neg (by omega)] at hfind2
        obtain ⟨hocc, hh, hl, ho⟩ := mo_find_hash_go_sound t.slots t.mask b b.length
          (mo_hash_string b) _ _ _ i hfind2
        obtain ⟨pj, hpj, hpo, hpt, hplen, hph⟩ := hwf.1 i (slotOcc_lt _ _ hocc) hocc
        rw [pureLookup_none_iff] at hpure
        have hm2 : pairMatches pj b b.length = true :=
          (pairMatches_iff _ _ _).mpr ⟨by rw [← hplen, hl], by rw [← hpo, ho]⟩
        rw [hpure pj hpj] at hm2
        cases hm2
  · obtain ⟨p, hmem, hmatch, htr⟩ := (pureLookup_some_iff ps0 b hdist tr).mp hpure
    obtain ⟨i, hilt, hocc, hio, hit⟩ := hwf.2.2.2 p hmem
    obtain ⟨p2, hp2m, h2o, h2t, h2l, h2h⟩ := hwf.1 i hilt hocc
    have hp2 : p2 = p := orig_eq_of_mem ps0 hdist hp2m hmem (by rw [← h2o, hio])
    subst hp2
    obtain ⟨hpl, hpo⟩ := (pairMatches_iff _ _ _).mp hmatch
    have hstart : mo_hash_string b &&& t.mask = mo_hash_string b % t.slots.length := by
      rw [hmask, and_mask_eq_mod, hlen]
    have hslt : mo_hash_string b % t.slots.length < t.slots.length := Nat.mod_lt _ hpos
    have hhome : (t.slots.getD i emptySlot).hash % t.slots.length
        = mo_hash_string b % t.slots.length := by
      rw [h2h, hpo]
    have htgt : probeDist (mo_hash_string b % t.slots.length) i t.slots.length
        < t.slots.length := Nat.mod_lt _ hpos
    have hidx : probeIdx (mo_hash_string b % t.slots.length) t.slots.length
        (probeDist (mo_hash_string b % t.slots.length) i t.slots.length) = i :=
      probeIdx_probeDist _ _ _ hslt hilt
    have hpath : ∀ e, e < probeDist (mo_hash_string b % t.slots.length) i t.slots.length →
        slotOcc t.slots (probeIdx (mo_hash_string b % t.slots.length) t.slots.length e) := by
      intro e he
      have hc := hwf.2.2.1 i hilt hocc e (by rw [hhome]; exact he)
      rw [hhome] at hc
      exact hc
    obtain ⟨j, hj⟩ := mo_find_hash_go_complete t.slots t.mask k b b.length
      (mo_hash_string b) (mo_hash_string b % t.slots.length)
      (probeDist (mo_hash_string b % t.slots.length) i t.slots.length)
      hlen hmask hslt htgt
      (by rw [hidx]; exact hocc)
      (by rw [hidx, h2h, hpo])
      (by rw [hidx, h2l, hpl])
      (by rw [hidx, h2o, hpo])
      hpath t.slots.length 0 (by omega) (by omega)
    rw [probeIdx_zero _ _ hslt] at hj
    have hfind : (mo_find_string_hash t b b.length (mo_hash_string b)).1 = some (some j) := by
      unfold mo_find_string_hash
      rw [if_neg (by omega), hstart]
      exact hj
    rw [hfind]
    obtain ⟨hocc3, hh3, hl3, ho3⟩ := mo_find_hash_go_sound t.slots t.mask b b.length
      (mo_hash_string b) _ _ _ j hj
    obtain ⟨p3, hp3m, h3o, h3t, h3l, h3h⟩ := hwf.1 j (slotOcc_lt _ _ hocc3) hocc3
    have hp3 : p3 = p2 := orig_eq_of_mem ps0 hdist hp3m hmem (by rw [← h3o, ho3, hpo])
    subst hp3
    simp only [Option.getD_some]
    rw [h3t, htr]

/-! ## Translate correctness relative to the strategy-free lookup -/

theorem cacheOK_init (env : Nat → List Byte) (ps : List MoStringPair) :
    cacheOK env ps (List.replicate 64 none) := by
  intro o ho it hoit
  have := List.eq_of_mem_replicate ho
  subst this
  cases hoit

theorem cacheOK_set (env : Nat → List Byte) (ps : List MoStringPair)
    (cache : List (Option MoCacheItem)) (h : cacheOK env ps cache) (slot : Nat)
    (it : MoCacheItem) (hit : pureLookup ps (env it.original) = some it.translation) :
    cacheOK env ps (cache.set slot (some it)) := by
  intro o ho it2 hoit
  rcases List.mem_or_eq_of_mem_set ho with hmem | heq
  · exact h o hmem it2 hoit
  · rw [heq] at hoit
    cases hoit
    exact hit

/-- One valid `mo_translate_n` call, under the pointer-content
assignment `env` and a coherent cache: the returned bytes are the
strategy-free lookup's, coherence is preserved, and a missing
translation returns the input pointer with the cache untouched. -/
theorem mo_translate_n_step (m : SearchMethod) (ctx : MoContext)
    (psA ps0 : List MoStringPair) (hps : ctx.pairs = some psA)
    (hsr : ∀ b, searchResult m ctx psA b = pureLookup ps0 b)
    (env : Nat → List Byte) (q : Query) (hq : q.bytes = env q.ptr)
    (st : MoRunState) (hcache : cacheOK env ps0 st.cache) :
    ((mo_translate_n m (some ctx) (some q) st).1).bytesFor q.bytes
        = (pureLookup ps0 q.bytes).getD q.bytes ∧
    cacheOK env ps0 (mo_translate_n m (some ctx) (some q) st).2.cache ∧
    (pureLookup ps0 q.bytes = none →
      (mo_translate_n m (some ctx) (some q) st).1 = .passthrough ∧
      (mo_translate_n m (some ctx) (some q) st).2.cache = st.cache) := by
  cases m
  case linear =>
    have hsr2 := hsr q.bytes
    unfold searchResult at hsr2
    dsimp only at hsr2
    simp only [mo_translate_n, hps]
    split
    · next hhit =>
      rcases hslot : st.cache.getD (q.ptr &&& 63) none with _ | item
      · rw [hslot] at hhit
        cases hhit
      · rw [hslot] at hhit
        simp only [beq_iff_eq] at hhit
        have hpure := hcache _ (by
          by_cases hlt : q.ptr &&& 63 < st.cache.length
          · rw [List.getD_eq_getElem _ _ hlt] at hslot
            rw [← hslot]
            exact List.getElem_mem _
          · rw [List.getD_eq_getElem?_getD, List.getElem?_eq_none (by omega)] at hslot
            cases hslot) item rfl
        rw [hhit, ← hq] at hpure
        refine ⟨by rw [hpure]; rfl, by simpa using hcache, ?_⟩
        intro hnone
        rw [hnone] at hpure
        cases hpure
    · rcases hf : mo_find_string_linear psA q.bytes q.bytes.length with ⟨r, c⟩
      rw [hf] at hsr2
      cases r with
      | none =>
        simp only [Option.map_none'] at hsr2
        refine ⟨by rw [← hsr2]; rfl, by simpa using hcache, ?_⟩
        intro _
        exact ⟨rfl, rfl⟩
      | some i =>
        simp only [Option.map_some'] at hsr2
        refine ⟨by rw [← hsr2]; rfl, ?_, ?_⟩
        · refine cacheOK_set env ps0 st.cache hcache _ _ ?_
          rw [← hq, ← hsr2]
        · intro hnone
          rw [hnone] at hsr2
          cases hsr2
  case binary =>
    have hsr2 := hsr q.bytes
    unfold searchResult at hsr2
    dsimp only at hsr2
    simp only [mo_translate_n, hps]
    split
    · next hhit =>
      rcases hslot : st.cache.getD (q.ptr &&& 63) none with _ | item
      · rw [hslot] at hhit
        cases hhit
      · rw [hslot] at hhit
        simp only [beq_iff_eq] at hhit
        have hpure := hcache _ (by
          by_cases hlt : q.ptr &&& 63 < st.cache.length
          · rw [List.getD_eq_getElem _ _ hlt] at hslot
            rw [← hslot]
            exact List.getElem_mem _
          · rw [List.getD_eq_getElem?_getD, List.getElem?_eq_none (by omega)] at hslot
            cases hslot) item rfl
        rw [hhit, ← hq] at hpure
        refine ⟨by rw [hpure]; rfl, by simpa using hcache, ?_⟩
        intro hnone
        rw [hnone] at hpure
        cases hpure
    · rcases hf : mo_find_string_binary psA q.bytes q.bytes.length with ⟨r, c⟩
      rw [hf] at hsr2
      cases r with
      | none =>
        simp only [Option.map_none'] at hsr2
        refine ⟨by rw [← hsr2]; rfl, by simpa using hcache, ?_⟩
        intro _
        exact ⟨rfl, rfl⟩
      | some i =>
        simp only [Option.map_some'] at hsr2
        refine ⟨by rw [← hsr2]; rfl, ?_, ?_⟩
        · refine cacheOK_set env ps0 st.cache hcache _ _ ?_
          rw [← hq, ← hsr2]
        · intro hnone
          rw [hnone] at hsr2
          cases hsr2
  case hash =>
    have hsr2 := hsr q.bytes
    unfold searchResult at hsr2
    dsimp only at hsr2
    simp only [mo_translate_n, hps]
    split
    · next hhit =>
      rcases hslot : st.cache.getD (mo_hash_string q.bytes &&& 63) none with _ | item
      · rw [hslot] at hhit
        cases hhit
      · rw [hslot] at hhit
        simp only [Bool.and_eq_true, beq_iff_eq] at hhit
        have hpure := hcache _ (by
          by_cases hlt : mo_hash_string q.bytes &&& 63 < st.cache.length
          · rw [List.getD_eq_getElem _ _ hlt] at hslot
            rw [← hslot]
            exact List.getElem_mem _
          · rw [List.getD_eq_getElem?_getD, List.getElem?_eq_none (by omega)] at hslot
            cases hslot) item rfl
        rw [hhit.1, ← hq] at hpure
        refine ⟨by rw [hpure]; rfl, by simpa using hcache, ?_⟩
        intro hnone
        rw [hnone] at hpure
        cases hpure
    · rcases hfr : (match ctx.hashTable with
          | none => ((some none : Option (Option Nat)), 0)
          | some t => mo_find_string_hash t q.bytes q.bytes.length
              (mo_hash_string q.bytes)) with ⟨res, c⟩
      rw [hfr] at hsr2
      simp only at hsr2
      rw [hfr]
      rcases res with _ | oi
      · refine ⟨by rw [← hsr2]; rfl, by simpa using hcache, ?_⟩
        intro _
        exact ⟨rfl, rfl⟩
      · rcases oi with _ | i
        · refine ⟨by rw [← hsr2]; rfl, by simpa using hcache, ?_⟩
          intro _
          exact ⟨rfl, rfl⟩
        · refine ⟨by rw [← hsr2]; rfl, ?_, ?_⟩
          · refine cacheOK_set env ps0 st.cache hcache _ _ ?_
            rw [← hq, ← hsr2]
            rfl
          · intro hnone
            rw [hnone] at hsr2
            cases hsr2

/-- Whole-run correctness: under a fixed pointer-content assignment,
every output of a query run is the strategy-free lookup of its bytes
(with a passthrough on a miss), and cache coherence is preserved. -/
theorem mo_run_pure (m : SearchMethod) (ctx : MoContext)
    (psA ps0 : List MoStringPair) (hps : ctx.pairs = some psA)
    (hsr : ∀ b, searchResult m ctx psA b = pureLookup ps0 b)
    (env : Nat → List Byte) :
    ∀ (qs : List Query) (st : MoRunState), (∀ q ∈ qs, q.bytes = env q.ptr) →
      cacheOK env ps0 st.cache →
      (mo_run m ctx qs st).1
          = qs.map (fun q => (pureLookup ps0 q.bytes).getD q.bytes) ∧
      cacheOK env ps0 (mo_run m ctx qs st).2.cache := by
  intro qs
  induction qs with
  | nil => exact fun st _ hc => ⟨rfl, hc⟩
  | cons q rest ih =>
    intro st hqs hc
    obtain ⟨hbytes, hcok, -⟩ := mo_translate_n_step m ctx psA ps0 hps hsr env q
      (hqs q (by simp)) st hc
    obtain ⟨ho, hcr⟩ := ih (mo_translate_n m (some ctx) (some q) st).2
      (fun q2 hq2 => hqs q2 (by simp [hq2])) hcok
    constructor
    · show ((mo_translate_n m (some ctx) (some q) st).1).bytesFor q.bytes ::
        (mo_run m ctx rest (mo_translate_n m (some ctx) (some q) st).2).1 = _
      rw [List.map_cons, hbytes, ho]
    · show cacheOK env ps0
        (mo_run m ctx rest (mo_translate_n m (some ctx) (some q) st).2).2.cache
      exact hcr

/-- A successful linear-mode load stores the file-order pair array. -/
theorem create_linear_shape (data : List Byte) (ctx : MoContext)
    (h : mo_context_create_from_memory .linear data = .ok ctx) :
    ∃ ps0, resolvedPairs data = some ps0 ∧ ctx.pairs = some ps0 := by
  simp only [mo_context_create_from_memory] at h
  simp only [resolvedPairs]
  split at h
  · cases h
  · next h1 =>
    split at h
    · next h2 =>
      split at h
      · cases h
      · next h3 =>
        split at h
        · cases h
        · next ds ps heq =>
          cases h
          exact ⟨ps, by rw [if_neg h1, if_pos h2, if_neg h3], rfl⟩
    · next h2 => cases h

/-- A successful binary-mode load stores the stably-sorted pair array. -/
theorem create_binary_shape (data : List Byte) (ctx : MoContext)
    (h : mo_context_create_from_memory .binary data = .ok ctx) :
    ∃ ps0, resolvedPairs data = some ps0 ∧
      ctx.pairs = some (List.insertionSort pairLe ps0) := by
  simp only [mo_context_create_from_memory] at h
  simp only [resolvedPairs]
  split at h
  · cases h
  · next h1 =>
    split at h
    · next h2 =>
      split at h
      · cases h
      · next h3 =>
        split at h
        · cases h
        · next ds ps heq =>
          cases h
          exact ⟨ps, by rw [if_neg h1, if_pos h2, if_neg h3], rfl⟩
    · next h2 => cases h

/-- A successful hash-mode load stores the file-order pair array plus a
built hash table over it. -/
theorem create_hash_shape (data : List Byte) (ctx : MoContext)
    (h : mo_context_create_from_memory .hash data = .ok ctx) :
    ∃ ps0 t, resolvedPairs data = some ps0 ∧ ctx.pairs = some ps0 ∧
      ctx.hashTable = some t ∧ mo_build_hash_table ps0 = some t := by
  simp only [mo_context_create_from_memory] at h
  simp only [resolvedPairs]
  split at h
  · cases h
  · next h1 =>
    split at h
    · next h2 =>
      split at h
      · cases h
      · next h3 =>
        split at h
        · cases h
        · next ds ps heq =>
          split at h
          · cases h
          · next ht hbt =>
            cases h
            exact ⟨ps, ht, by rw [if_neg h1, if_pos h2, if_neg h3], rfl, rfl, hbt⟩
    · next h2 => cases h

/-- Mode dispatch: every successful load stores a pair array over which
the compiled-in strategy's miss-path search computes exactly the
strategy-free lookup over the file-order pairs. -/
theorem create_search_facts (m : SearchMethod) (file : List Byte) (ctx : MoContext)
    (ps0 : List MoStringPair)
    (hc : mo_context_create_from_memory m file = .ok ctx)
    (hres : resolvedPairs file = some ps0)
    (hdist : distinctOriginals ps0) :
    ∃ psA, ctx.pairs = some psA ∧ ∀ b, searchResult m ctx psA b = pureLookup ps0 b := by
  cases m
  case linear =>
    obtain ⟨psL, hresL, hpsL⟩ := create_linear_shape file ctx hc
    rw [hres] at hresL
    injection hresL with hh
    subst hh
    exact ⟨ps0, hpsL, fun b => searchResult_linear ctx ps0 b⟩
  case binary =>
    obtain ⟨psB, hresB, hpsB⟩ := create_binary_shape file ctx hc
    rw [hres] at hresB
    injection hresB with hh
    subst hh
    exact ⟨_, hpsB, fun b => searchResult_binary ctx ps0 hdist b⟩
  case hash =>
    obtain ⟨psH, t, hresH, hpsH, hhtH, hbt⟩ := create_hash_shape file ctx hc
    rw [hres] at hresH
    injection hresH with hh
    subst hh
    obtain ⟨k, hlenk, hmaskk, -, hwfT⟩ := mo_build_hash_table_wf ps0 t hbt
    exact ⟨ps0, hpsH, fun b => searchResult_hash ctx ps0 ps0 t hhtH k hlenk hmaskk hwfT hdist b⟩

/-- Behaviour of `mo_translate_cp` with a null `context` argument: the
singular goes through the key buffer unqualified, and a plural request
falls back to the bare plural lookup. -/
theorem translate_cp_null_ctx (m : SearchMethod) (ctx : MoContext)
    (psA ps0 : List MoStringPair) (hps : ctx.pairs = some psA)
    (hsr : ∀ b, searchResult m ctx psA b = pureLookup ps0 b)
    (env : Nat → List Byte) (keyPtr : Nat) (s p : Query) (n : Nat) (st : MoRunState)
    (hlen : s.bytes.length < MO_MAX_STRING_LENGTH)
    (hkp : s.bytes = env keyPtr) (hpp : p.bytes = env p.ptr)
    (hcache : cacheOK env ps0 st.cache) :
    (n ≠ 1 → (mo_translate_cp m (some ctx) keyPtr none (some s) (some p) n st).1
        = (pureLookup ps0 p.bytes).getD p.bytes) ∧
    (n = 1 → (mo_translate_cp m (some ctx) keyPtr none (some s) (some p) n st).1
        = (pureLookup ps0 s.bytes).getD s.bytes) := by
  simp only [mo_translate_cp]
  rw [if_neg (by omega)]
  rcases htr1 : mo_translate_n m (some ctx) (some ⟨keyPtr, s.bytes⟩) st with ⟨r1, st1⟩
  have h1c : cacheOK env ps0 st1.cache := by
    have h := (mo_translate_n_step m ctx psA ps0 hps hsr env ⟨keyPtr, s.bytes⟩ hkp
      st hcache).2.1
    rw [htr1] at h
    exact h
  have h1b : r1.bytesFor s.bytes = (pureLookup ps0 s.bytes).getD s.bytes := by
    have h := (mo_translate_n_step m ctx psA ps0 hps hsr env ⟨keyPtr, s.bytes⟩ hkp
      st hcache).1
    rw [htr1] at h
    exact h
  dsimp only
  rw [if_neg (show ¬(r1 = TrRes.passthrough ∧ (none : Option (List Byte)) ≠ none)
    from by simp)]
  dsimp only
  rcases htr2 : mo_translate m (some ctx) (some p) st1 with ⟨r4, st4⟩
  have h2b : r4.bytesFor p.bytes = (pureLookup ps0 p.bytes).getD p.bytes := by
    have h := (mo_translate_n_step m ctx psA ps0 hps hsr env p hpp st1 h1c).1
    rw [show mo_translate_n m (some ctx) (some p) st1 = (r4, st4) from htr2] at h
    exact h
  constructor
  · intro hn
    rw [if_pos hn]
    exact h2b
  · intro hn
    rw [if_neg (show ¬ n ≠ 1 from fun h => h hn)]
    exact h1b

/-- Claim C1, amended: in a successfully loaded catalog whose original
strings are pairwise distinct and whose views carry their declared
lengths, `mo_translate_n` on the `i`-th original's bytes (exact stored
length, fresh state) returns bytes equal to the `i`-th translation,
under each of the three compile-time search strategies. -/
theorem C1_roundtrip_distinct (m : SearchMethod) (file : List Byte) (ctx : MoContext)
    (ps0 : List MoStringPair) (i : Nat) (q : Query)
    (hc : mo_context_create_from_memory m file = .ok ctx)
    (hres : resolvedPairs file = some ps0)
    (hdist : distinctOriginals ps0)
    (hwf : wellFormed ps0)
    (hi : i < ps0.length)
    (hqb : q.bytes = (ps0.getD i default).original) :
    ((mo_translate_n m (some ctx) (some q) initRunState).1).bytesFor q.bytes
      = (ps0.getD i default).translation := by
  have hmem : ps0.getD i default ∈ ps0 := by
    rw [List.getD_eq_getElem _ _ hi]
    exact List.getElem_mem _
  have hmatch : pairMatches (ps0.getD i default) (ps0.getD i default).original
      (ps0.getD i default).original.length = true := by
    rw [pairMatches_iff]
    exact ⟨((hwf _ hmem).1).symm, rfl⟩
  have hpure : pureLookup ps0 (ps0.getD i default).original
      = some (ps0.getD i default).translation := by
    rw [pureLookup_some_iff _ _ hdist]
    exact ⟨_, hmem, hmatch, rfl⟩
  obtain ⟨psA, hps, hsr⟩ := create_search_facts m file ctx ps0 hc hres hdist
  have hstep := mo_translate_n_step m ctx psA ps0 hps hsr (fun _ => q.bytes) q rfl
    initRunState (cacheOK_init _ _)
  rw [hstep.1, hqb, hpure, Option.getD_some]

/-- Closed instance of C1: in the linear build of `exFileGood`, looking
up the second original `"abc"` returns its stored translation. -/
theorem C1_witness :
    1 < exPairsGood.length ∧
    ((mo_translate_n .linear (some (ctxOf .linear exFileGood))
        (some ⟨7, [97, 98, 99]⟩) initRunState).1).bytesFor [97, 98, 99]
      = (exPairsGood.getD 1 default).translation :=
  ⟨by decide,
   C1_roundtrip_distinct .linear exFileGood (ctxOf .linear exFileGood) exPairsGood 1
     ⟨7, [97, 98, 99]⟩ (by decide) (by decide) (by decide) (by decide) (by decide)
     (by decide)⟩

/-- Claim C2, amended: for one `.mo` file with pairwise-distinct
originals and one query sequence in which every pointer always carries
the same bytes, the translation bytes returned by `mo_translate_n` are
identical across the three compile-time search strategies. -/
theorem C2_strategy_equivalence (file : List Byte) (ctxL ctxB ctxH : MoContext)
    (ps0 : List MoStringPair) (env : Nat → List Byte) (qs : List Query)
    (hcL : mo_context_create_from_memory .linear file = .ok ctxL)
    (hcB : mo_context_create_from_memory .binary file = .ok ctxB)
    (hcH : mo_context_create_from_memory .hash file = .ok ctxH)
    (hres : resolvedPairs file = some ps0)
    (hdist : distinctOriginals ps0)
    (hqs : ∀ q ∈ qs, q.bytes = env q.ptr) :
    (mo_run .linear ctxL qs initRunState).1 = (mo_run .binary ctxB qs initRunState).1 ∧
    (mo_run .binary ctxB qs initRunState).1 = (mo_run .hash ctxH qs initRunState).1 := by
  obtain ⟨psL, hpsL, hsrL⟩ := create_search_facts .linear file ctxL ps0 hcL hres hdist
  obtain ⟨psB, hpsB, hsrB⟩ := create_search_facts .binary file ctxB ps0 hcB hres hdist
  obtain ⟨psH, hpsH, hsrH⟩ := create_search_facts .hash file ctxH ps0 hcH hres hdist
  have hL := mo_run_pure .linear ctxL psL ps0 hpsL hsrL env qs initRunState hqs
    (cacheOK_init _ _)
  have hB := mo_run_pure .binary ctxB psB ps0 hpsB hsrB env qs initRunState hqs
    (cacheOK_init _ _)
  have hH := mo_run_pure .hash ctxH psH ps0 hpsH hsrH env qs initRunState hqs
    (cacheOK_init _ _)
  exact ⟨by rw [hL.1, hB.1], by rw [hB.1, hH.1]⟩

/-- Closed instance of C2: a hit-then-miss query trace on `exFileGood`
produces the same outputs in the linear, binary and hash builds. -/
theorem C2_witness :
    (mo_run .linear (ctxOf .linear exFileGood) [⟨5, [97, 98]⟩, ⟨9, [120]⟩]
        initRunState).1
      = (mo_run .binary (ctxOf .binary exFileGood) [⟨5, [97, 98]⟩, ⟨9, [120]⟩]
        initRunState).1 ∧
    (mo_run .binary (ctxOf .binary exFileGood) [⟨5, [97, 98]⟩, ⟨9, [120]⟩]
        initRunState).1
      = (mo_run .hash (ctxOf .hash exFileGood) [⟨5, [97, 98]⟩, ⟨9, [120]⟩]
        initRunState).1 :=
  C2_strategy_equivalence exFileGood (ctxOf .linear exFileGood)
    (ctxOf .binary exFileGood) (ctxOf .hash exFileGood) exPairsGood
    (fun x => if x = 5 then [97, 98] else [120]) [⟨5, [97, 98]⟩, ⟨9, [120]⟩]
    (by decide) (by decide) (by decide) (by decide) (by decide) (by decide)

/-- A query matching no pair of the array is missed by the binary
search, whatever the order (and multiplicity) of the array. -/
theorem searchResult_binary_none (ctx : MoContext) (psA : List MoStringPair)
    (b : List Byte) (habs : ∀ p ∈ psA, pairMatches p b b.length = false) :
    searchResult .binary ctx psA b = none := by
  unfold searchResult
  dsimp only
  unfold mo_find_string_binary
  by_cases hlen : psA.length = 0
  · rw [if_pos hlen]
    rfl
  · rw [if_neg hlen]
    rcases hres : (mo_find_binary_go psA b b.length 0 (psA.length - 1)).1 with _ | i
    · simp only [Option.map_none']
    · exfalso
      obtain ⟨hilt, hieq⟩ := binGo_sound psA b b.length psA.length 0 (psA.length - 1) i
        (by omega) (by omega) hres
      have hmatch : pairMatches (psA.getD i default) b b.length = true :=
        (pairQueryCmp_eq_iff _ _ _).mp hieq
      have hmem : psA.getD i default ∈ psA := by
        rw [List.getD_eq_getElem _ _ hilt]
        exact List.getElem_mem _
      rw [habs _ hmem] at hmatch
      cases hmatch

/-- A query matching no pair of the source array is missed by the hash
probe over any table built from it — no distinctness needed, since a
found slot always stores some source pair. -/
theorem searchResult_hash_none (ctx : MoContext) (psA ps0 : List MoStringPair)
    (t : MoHashTable) (hht : ctx.hashTable = some t) (hpos : 0 < t.slots.length)
    (hwf : tableWF ps0 t.slots) (b : List Byte)
    (hnone : pureLookup ps0 b = none) :
    searchResult .hash ctx psA b = none := by
  unfold searchResult
  dsimp only
  rw [hht]
  rcases hfind : (mo_find_string_hash t b b.length (mo_hash_string b)).1 with _ | oi
  · rfl
  · rcases oi with _ | i
    · rfl
    · exfalso
      have hfind2 := hfind
      unfold mo_find_string_hash at hfind2
      rw [if_neg (by omega)] at hfind2
      obtain ⟨hocc, hh, hl, ho⟩ := mo_find_hash_go_sound t.slots t.mask b b.length
        (mo_hash_string b) _ _ _ i hfind2
      obtain ⟨pj, hpj, hpo, hpt, hplen, hph⟩ := hwf.1 i (slotOcc_lt _ _ hocc) hocc
      rw [pureLookup_none_iff] at hnone
      have hm2 : pairMatches pj b b.length = true :=
        (pairMatches_iff _ _ _).mpr ⟨by rw [← hplen, hl], by rw [← hpo, ho]⟩
      rw [hnone pj hpj] at hm2
      cases hm2

/-- Mode dispatch for the miss path: after any successful load, a query
whose bytes match no file pair is missed by the compiled-in strategy,
with no distinctness assumption on the originals. -/
theorem create_miss_facts (m : SearchMethod) (file : List Byte) (ctx : MoContext)
    (ps0 : List MoStringPair) (b : List Byte)
    (hc : mo_context_create_from_memory m file = .ok ctx)
    (hres : resolvedPairs file = some ps0)
    (hnone : pureLookup ps0 b = none) :
    ∃ psA, ctx.pairs = some psA ∧ searchResult m ctx psA b = none := by
  cases m
  case linear =>
    obtain ⟨psL, hresL, hpsL⟩ := create_linear_shape file ctx hc
    rw [hres] at hresL
    injection hresL with hh
    subst hh
    exact ⟨ps0, hpsL, by rw [searchResult_linear ctx ps0 b, hnone]⟩
  case binary =>
    obtain ⟨psB, hresB, hpsB⟩ := create_binary_shape file ctx hc
    rw [hres] at hresB
    injection hresB with hh
    subst hh
    refine ⟨_, hpsB, searchResult_binary_none ctx _ b ?_⟩
    intro p hp
    exact (pureLookup_none_iff _ _).mp hnone p
      ((List.perm_insertionSort pairLe ps0).mem_iff.mp hp)
  case hash =>
    obtain ⟨psH, t, hresH, hpsH, hhtH, hbt⟩ := create_hash_shape file ctx hc
    rw [hres] at hresH
    injection hresH with hh
    subst hh
    obtain ⟨k, hlenk, -, -, hwfT⟩ := mo_build_hash_table_wf ps0 t hbt
    exact ⟨ps0, hpsH, searchResult_hash_none ctx ps0 ps0 t hhtH
      (by rw [hlenk]; exact Nat.pos_pow_of_pos _ (by omega)) hwfT b hnone⟩

/-- Miss-only form of the step lemma: with a coherent cache and a
strategy miss, the call passes the input through and leaves the cache
untouched.  Unlike `mo_translate_n_step` this needs no global
strategy/lookup agreement, hence no distinct-originals assumption. -/
theorem mo_translate_n_miss (m : SearchMethod) (ctx : MoContext)
    (psA ps0 : List MoStringPair) (hps : ctx.pairs = some psA)
    (env : Nat → List Byte) (q : Query) (hq : q.bytes = env q.ptr)
    (hnone : pureLookup ps0 q.bytes = none)
    (hsrb : searchResult m ctx psA q.bytes = none)
    (st : MoRunState) (hcache : cacheOK env ps0 st.cache) :
    (mo_translate_n m (some ctx) (some q) st).1 = .passthrough ∧
    (mo_translate_n m (some ctx) (some q) st).2.cache = st.cache := by
  cases m
  case linear =>
    have hsr2 := hsrb
    unfold searchResult at hsr2
    dsimp only at hsr2
    simp only [mo_translate_n, hps]
    split
    · next hhit =>
      exfalso
      rcases hslot : st.cache.getD (q.ptr &&& 63) none with _ | item
      · rw [hslot] at hhit
        cases hhit
      · rw [hslot] at hhit
        simp only [beq_iff_eq] at hhit
        have hpure := hcache _ (by
          by_cases hlt : q.ptr &&& 63 < st.cache.length
          · rw [List.getD_eq_getElem _ _ hlt] at hslot
            rw [← hslot]
            exact List.getElem_mem _
          · rw [List.getD_eq_getElem?_getD, List.getElem?_eq_none (by omega)] at hslot
            cases hslot) item rfl
        rw [hhit, ← hq, hnone] at hpure
        cases hpure
    · rcases hf : mo_find_string_linear psA q.bytes q.bytes.length with ⟨r, c⟩
      rw [hf] at hsr2
      cases r with
      | none => exact ⟨rfl, rfl⟩
      | some i =>
        simp only [Option.map_some'] at hsr2
        cases hsr2
  case binary =>
    have hsr2 := hsrb
    unfold searchResult at hsr2
    dsimp only at hsr2
    simp only [mo_translate_n, hps]
    split
    · next hhit =>
      exfalso
      rcases hslot : st.cache.getD (q.ptr &&& 63) none with _ | item
      · rw [hslot] at hhit
        cases hhit
      · rw [hslot] at hhit
        simp only [beq_iff_eq] at hhit
        have hpure := hcache _ (by
          by_cases hlt : q.ptr &&& 63 < st.cache.length
          · rw [List.getD_eq_getElem _ _ hlt] at hslot
            rw [← hslot]
            exact List.getElem_mem _
          · rw [List.getD_eq_getElem?_getD, List.getElem?_eq_none (by omega)] at hslot
            cases hslot) item rfl
        rw [hhit, ← hq, hnone] at hpure
        cases hpure
    · rcases hf : mo_find_string_binary psA q.bytes q.bytes.length with ⟨r, c⟩
      rw [hf] at hsr2
      cases r with
      | none => exact ⟨rfl, rfl⟩
      | some i =>
        simp only [Option.map_some'] at hsr2
        cases hsr2
  case hash =>
    have hsr2 := hsrb
    unfold searchResult at hsr2
    dsimp only at hsr2
    simp only [mo_translate_n, hps]
    split
    · next hhit =>
      exfalso
      rcases hslot : st.cache.getD (mo_hash_string q.bytes &&& 63) none with _ | item
      · rw [hslot] at hhit
        cases hhit
      · rw [hslot] at hhit
        simp only [Bool.and_eq_true, beq_iff_eq] at hhit
        have hpure := hcache _ (by
          by_cases hlt : mo_hash_string q.bytes &&& 63 < st.cache.length
          · rw [List.getD_eq_getElem _ _ hlt] at hslot
            rw [← hslot]
            exact List.getElem_mem _
          · rw [List.getD_eq_getElem?_getD, List.getElem?_eq_none (by omega)] at hslot
            cases hslot) item rfl
        rw [hhit.1, ← hq, hnone] at hpure
        cases hpure
    · rcases hfr : (match ctx.hashTable with
          | none => ((some none : Option (Option Nat)), 0)
          | some t => mo_find_string_hash t q.bytes q.bytes.length
              (mo_hash_string q.bytes)) with ⟨res, c⟩
      rw [hfr] at hsr2
      simp only at hsr2
      rw [hfr]
      rcases res with _ | oi
      · exact ⟨rfl, rfl⟩
      · rcases oi with _ | i
        · exact ⟨rfl, rfl⟩
        · cases hsr2

/-- Claim C3: from any cache state coherent with the pointer-content
assignment, a query whose bytes match no stored original is returned
unchanged (`passthrough`, i.e. `result == input`) and the cache is left
untouched, under each of the three compile-time search strategies —
including catalogs that store the same original more than once. -/
theorem C3_miss_passthrough (m : SearchMethod) (file : List Byte) (ctx : MoContext)
    (ps0 : List MoStringPair) (env : Nat → List Byte) (q : Query) (st : MoRunState)
    (hc : mo_context_create_from_memory m file = .ok ctx)
    (hres : resolvedPairs file = some ps0)
    (hq : q.bytes = env q.ptr)
    (hcache : cacheOK env ps0 st.cache)
    (habsent : ∀ pr ∈ ps0, pairMatches pr q.bytes q.bytes.length = false) :
    (mo_translate m (some ctx) (some q) st).1 = .passthrough ∧
    (mo_translate m (some ctx) (some q) st).2.cache = st.cache := by
  have hnone : pureLookup ps0 q.bytes = none := (pureLookup_none_iff _ _).mpr habsent
  obtain ⟨psA, hps, hsrb⟩ := create_miss_facts m file ctx ps0 q.bytes hc hres hnone
  exact mo_translate_n_miss m ctx psA ps0 hps env q hq hnone hsrb st hcache

/-- Closed instance of C3: the absent query `"x"` passes through the
hash build of the duplicate-original catalog `exFileDup` without
touching the fresh cache. -/
theorem C3_witness :
    (mo_translate .hash (some (ctxOf .hash exFileDup)) (some ⟨3, [120]⟩)
        initRunState).1 = .passthrough ∧
    (mo_translate .hash (some (ctxOf .hash exFileDup)) (some ⟨3, [120]⟩)
        initRunState).2.cache = initRunState.cache :=
  C3_miss_passthrough .hash exFileDup (ctxOf .hash exFileDup) exPairsDup
    (fun _ => [120]) ⟨3, [120]⟩ initRunState (by decide) (by decide) rfl
    (cacheOK_init _ _) (by decide)

/-- Claim C7, amended: with a null `context` argument (the spec's own
example shape), non-null singular and plural, and a coherent cache,
`mo_translate_cp` returns the bare plural lookup's result when
`n != 1` and the singular lookup's result when `n == 1`, under each of
the three compile-time search strategies. -/
theorem C7_null_context_plural (m : SearchMethod) (file : List Byte) (ctx : MoContext)
    (ps0 : List MoStringPair) (env : Nat → List Byte) (keyPtr : Nat)
    (s p : Query) (n : Nat) (st : MoRunState)
    (hc : mo_context_create_from_memory m file = .ok ctx)
    (hres : resolvedPairs file = some ps0)
    (hdist : distinctOriginals ps0)
    (hlen : s.bytes.length < MO_MAX_STRING_LENGTH)
    (hkp : s.bytes = env keyPtr) (hpp : p.bytes = env p.ptr)
    (hcache : cacheOK env ps0 st.cache) :
    (n ≠ 1 → (mo_translate_cp m (some ctx) keyPtr none (some s) (some p) n st).1
        = (pureLookup ps0 p.bytes).getD p.bytes) ∧
    (n = 1 → (mo_translate_cp m (some ctx) keyPtr none (some s) (some p) n st).1
        = (pureLookup ps0 s.bytes).getD s.bytes) := by
  obtain ⟨psA, hps, hsr⟩ := create_search_facts m file ctx ps0 hc hres hdist
  exact translate_cp_null_ctx m ctx psA ps0 hps hsr env keyPtr s p n st hlen hkp hpp
    hcache

/-- Closed instance of C7: with null context and `n = 5`, the plural
`"abc"` of `exFileGood` is resolved by the bare plural lookup. -/
theorem C7_witness :
    (5 : Nat) ≠ 1 ∧
    (mo_translate_cp .linear (some (ctxOf .linear exFileGood)) 100 none
        (some ⟨100, [97, 98]⟩) (some ⟨7, [97, 98, 99]⟩) 5 initRunState).1
      = (pureLookup exPairsGood [97, 98, 99]).getD [97, 98, 99] :=
  ⟨by decide,
   (C7_null_context_plural .linear exFileGood (ctxOf .linear exFileGood) exPairsGood
      (fun x => if x = 7 then [97, 98, 99] else [97, 98]) 100
      ⟨100, [97, 98]⟩ ⟨7, [97, 98, 99]⟩ 5 initRunState
      (by decide) (by decide) (by decide) (by decide) rfl rfl
      (cacheOK_init _ _)).1 (by decide)⟩

end MoParser
